import Mathlib

/-!
# Verification of the sdtgen parser generator and runtime

Shallow embedding of the parts of the sdtgen sources (an LALR(1)
scanner/parser generator with locally least-cost error repair) that the
specification's claims are about, together with theorems settling those
claims.

Conventions:
* C `int` values are modelled as `Int` (table entries, costs) or `Nat`
  (array indices, counts); overflow does not occur in the modelled
  fragments except where noted.
* C arrays are modelled as total functions (out-of-range cells read as the
  `memset` value `0`) or as `List`s when their length matters.
* Each definition carries a comment naming the C function it embeds.
-/

namespace Sdtgen

/-! ## Parser action encoding (src/include/parser_definitions.h)

Shift state numbers are encoded as `SHIFT_OFFSET + state`, shiftreduce
production numbers directly (`≤ SHIFT_OFFSET`), accept as `ACCEPT_OFFSET`,
reduce as the negated production number (`> ACCEPT_OFFSET`), error as 0. -/

def SHIFT_OFFSET : Int := 10000

def ACCEPT_OFFSET : Int := -10000

def MAXCOST : Int := 99999

/-- Parsing actions decoded from the table entries
(`ERROR`/`SHIFT`/`SHIFTREDUCE`/`REDUCE`/`ACCEPT` in parser_definitions.h). -/
inductive PAction where
  | error
  | shift
  | shiftreduce
  | reduce
  | accept
deriving DecidableEq, Repr

/-- The compressed parser tables consulted by the runtime driver
(fields `pbase`, `pcheck`, `pnext` of `struct sdt_tables`).
Arrays are modelled as total functions on `Int` indices. -/
structure RTables where
  pbase : Int → Int
  pcheck : Int → Int
  pnext : Int → Int

/-- `decode_action` from src/lib/parser.c: determine the parsing action for a
state and terminal symbol.  The entry is validated against `pcheck`; a valid
negative entry is a reduce, an entry above `SHIFT_OFFSET` a shift, and any
other valid entry a shiftreduce.  Returns the action paired with the decoded
state/production number (`*entry`; 0 when the C code leaves it unset). -/
def decode_action (t : RTables) (state token : Int) : PAction × Int :=
  let i := t.pbase state + token
  if t.pcheck i = state then
    let next := t.pnext i
    if next < 0 then
      (.reduce, -next)
    else if next > SHIFT_OFFSET then
      (.shift, next - SHIFT_OFFSET)
    else
      (.shiftreduce, next)
  else
    (.error, 0)

/-- `decode_goto` from src/lib/parser.c: determine the parsing action for a
state and nonterminal symbol.  No validation against `pcheck` is performed;
entries above `SHIFT_OFFSET` are shifts, positive entries shiftreduces, and
every non-positive entry is decoded as `ACCEPT` with entry 0. -/
def decode_goto (t : RTables) (state token : Int) : PAction × Int :=
  let next := t.pnext (t.pbase state + token)
  if next > SHIFT_OFFSET then
    (.shift, next - SHIFT_OFFSET)
  else if next > 0 then
    (.shiftreduce, next)
  else
    (.accept, 0)

/-- Modelled from the spec: the five-case decoding that claim C3 attributes
to the runtime's table-entry decoding — valid entries (`pcheck` matches)
decode as shift above `SHIFT_OFFSET`, shiftreduce for `0 < next ≤
SHIFT_OFFSET`, reduce for `ACCEPT_OFFSET < next < 0`, accept at
`ACCEPT_OFFSET` exactly, and error at 0; invalid entries are errors. -/
def decode_claimed (t : RTables) (state token : Int) : PAction × Int :=
  let i := t.pbase state + token
  if t.pcheck i = state then
    let next := t.pnext i
    if next > SHIFT_OFFSET then
      (.shift, next - SHIFT_OFFSET)
    else if 0 < next then
      (.shiftreduce, next)
    else if next = 0 then
      (.error, 0)
    else if next = ACCEPT_OFFSET then
      (.accept, 0)
    else
      (.reduce, -next)
  else
    (.error, 0)

/-- A concrete compressed table whose single state 1 has, at token 1, the
persisted accept entry `ACCEPT_OFFSET`, and at token 2 a zero (error) cell
that nevertheless carries the matching check value. -/
def acceptTbl : RTables where
  pbase := fun _ => 0
  pcheck := fun i => if i = 1 ∨ i = 2 then 1 else 0
  pnext := fun i => if i = 1 then ACCEPT_OFFSET else 0

end Sdtgen

namespace Sdtgen

/-- C3, counterexample: on a table whose valid entry holds the persisted
accept code `ACCEPT_OFFSET`, `decode_action` decodes a *reduce* by
production 10000 — not the accept that the claim's five-case encoding
prescribes — and on a valid zero entry it decodes a shiftreduce rather
than an error. -/
theorem decode_action_accept_counterexample :
    decode_action acceptTbl 1 1 = (.reduce, 10000) ∧
    decode_claimed acceptTbl 1 1 = (.accept, 0) ∧
    decode_action acceptTbl 1 2 = (.shiftreduce, 0) ∧
    decode_claimed acceptTbl 1 2 = (.error, 0) := by
  refine ⟨?_, ?_, ?_, ?_⟩ <;> decide

/-- C3 (amended): for every state and token, `decode_action` treats the
entry as valid only when `pcheck[pbase[state]+token] == state` (otherwise
the result is the error action); a valid entry `next` decodes as shift to
`next − SHIFT_OFFSET` when `next > SHIFT_OFFSET`, as shift-reduce by
production `next` when `0 ≤ next ≤ SHIFT_OFFSET`, and as reduce by
production `−next` for every negative `next` — including the accept code
`ACCEPT_OFFSET`, which only `decode_goto` (which maps every non-positive
entry to accept) decodes as an accept. -/
theorem decode_action_spec (t : RTables) (state token : Int)
    (next : Int) (hn : next = t.pnext (t.pbase state + token)) :
    (t.pcheck (t.pbase state + token) ≠ state →
      decode_action t state token = (.error, 0)) ∧
    (t.pcheck (t.pbase state + token) = state →
      (next > SHIFT_OFFSET → decode_action t state token = (.shift, next - SHIFT_OFFSET)) ∧
      (0 ≤ next ∧ next ≤ SHIFT_OFFSET → decode_action t state token = (.shiftreduce, next)) ∧
      (next < 0 → decode_action t state token = (.reduce, -next)) ∧
      (next ≤ 0 → (decode_goto t state token).1 = .accept)) := by
  subst hn
  unfold decode_action decode_goto
  constructor
  · intro hne
    simp [hne]
  · intro heq
    simp only [heq, if_pos rfl]
    refine ⟨?_, ?_, ?_, ?_⟩
    · intro hgt
      have h0 : ¬ t.pnext (t.pbase state + token) < 0 := by
        intro h; exact absurd (h.trans (by norm_num [SHIFT_OFFSET])) (lt_asymm hgt)
      simp [h0, hgt]
    · rintro ⟨h0, h1⟩
      have h2 : ¬ t.pnext (t.pbase state + token) < 0 := not_lt.mpr h0
      have h3 : ¬ t.pnext (t.pbase state + token) > SHIFT_OFFSET := not_lt.mpr h1
      simp [h2, h3]
    · intro hneg
      simp [hneg]
    · intro hle
      have h3 : ¬ t.pnext (t.pbase state + token) > SHIFT_OFFSET := by
        intro h; exact absurd (lt_of_lt_of_le h hle) (by norm_num [SHIFT_OFFSET])
      have h4 : ¬ t.pnext (t.pbase state + token) > 0 := not_lt.mpr hle
      simp [h3, h4]

/-- Witness for `decode_action_spec` at the concrete table `acceptTbl`,
state 1, token 1 (where `pnext = ACCEPT_OFFSET`): the hypotheses are
discharged and the reduce branch fires. -/
theorem decode_action_spec_witness :
    Sdtgen.ACCEPT_OFFSET = acceptTbl.pnext (acceptTbl.pbase 1 + 1) ∧
    (acceptTbl.pcheck (acceptTbl.pbase 1 + 1) = 1 ∧
      decode_action acceptTbl 1 1 = (.reduce, -ACCEPT_OFFSET) ∧
      (decode_goto acceptTbl 1 1).1 = .accept) := by
  have h := decode_action_spec acceptTbl 1 1 ACCEPT_OFFSET (by decide)
  refine ⟨by decide, by decide, ?_, ?_⟩
  · exact (h.2 (by decide)).2.2.1 (by decide)
  · exact (h.2 (by decide)).2.2.2 (by decide)

/-- C9: `decode_goto` never fails — its result ignores `pcheck` entirely,
decodes entries above `SHIFT_OFFSET` as shift, positive entries up to
`SHIFT_OFFSET` as shiftreduce, and *every* non-positive entry (zero error
cells and reduce-encoded entries included) as accept; it can never return
the error or reduce action. -/
theorem decode_goto_total_spec (t : RTables) (state token : Int)
    (next : Int) (hn : next = t.pnext (t.pbase state + token)) :
    (∀ pc : Int → Int,
      decode_goto { t with pcheck := pc } state token = decode_goto t state token) ∧
    (next > SHIFT_OFFSET → decode_goto t state token = (.shift, next - SHIFT_OFFSET)) ∧
    (0 < next ∧ next ≤ SHIFT_OFFSET → decode_goto t state token = (.shiftreduce, next)) ∧
    (next ≤ 0 → decode_goto t state token = (.accept, 0)) ∧
    (decode_goto t state token).1 ≠ .error ∧
    (decode_goto t state token).1 ≠ .reduce := by
  subst hn
  unfold decode_goto
  refine ⟨fun pc => rfl, ?_, ?_, ?_, ?_, ?_⟩
  · intro hgt; simp [hgt]
  · rintro ⟨h0, h1⟩
    have h3 : ¬ t.pnext (t.pbase state + token) > SHIFT_OFFSET := not_lt.mpr h1
    simp [h3, h0]
  · intro hle
    have h3 : ¬ t.pnext (t.pbase state + token) > SHIFT_OFFSET := by
      intro h; exact absurd (lt_of_lt_of_le h hle) (by norm_num [SHIFT_OFFSET])
    have h4 : ¬ t.pnext (t.pbase state + token) > 0 := not_lt.mpr hle
    simp [h3, h4]
  · by_cases hs : t.pnext (t.pbase state + token) > SHIFT_OFFSET
    · simp [hs]
    · by_cases hp : t.pnext (t.pbase state + token) > 0 <;> simp [hs, hp]
  · by_cases hs : t.pnext (t.pbase state + token) > SHIFT_OFFSET
    · simp [hs]
    · by_cases hp : t.pnext (t.pbase state + token) > 0 <;> simp [hs, hp]

/-- Witness for `decode_goto_total_spec`: at `acceptTbl`, state 1, token 1
the entry is the reduce-coded `ACCEPT_OFFSET`, yet decoding yields accept. -/
theorem decode_goto_total_spec_witness :
    Sdtgen.ACCEPT_OFFSET = acceptTbl.pnext (acceptTbl.pbase 1 + 1) ∧
    decode_goto acceptTbl 1 1 = (.accept, 0) := by
  have h := decode_goto_total_spec acceptTbl 1 1 ACCEPT_OFFSET (by decide)
  exact ⟨by decide, h.2.2.2.1 (by decide)⟩

end Sdtgen

namespace Sdtgen

/-! ## Ordered integer sets (src/src/intset.c)

An `intset` is a dynarray of `int` kept strictly increasing; modelled as a
`List Int` (the live prefix of the array).  The C distinction between a
null and an allocated-but-empty array does not affect the contents and is
dropped. -/

/-- The binary search shared by `intset_find`, `intset_insert` and
`intset_delete` in src/src/intset.c: search `a[lower..upper)` for `value`,
returning its index, or `none` when the loop ends with `lower ≥ upper`. -/
def binsearch (a : List Int) (value : Int) (lower upper : Nat) : Option Nat :=
  if _h : lower < upper then
    match a[lower + (upper - lower) / 2]? with
    | none => none
    | some x =>
      if value < x then binsearch a value lower (lower + (upper - lower) / 2)
      else if x < value then binsearch a value (lower + (upper - lower) / 2 + 1) upper
      else some (lower + (upper - lower) / 2)
  else
    none
termination_by upper - lower
decreasing_by
  · omega
  · omega

/-- The insertion loop of `intset_insert` scans from the right end of the
array, shifting entries greater than `value` one place right and dropping
`value` in front of them; this helper performs that walk on the reversed
list. -/
def insertRev (l : List Int) (value : Int) : List Int :=
  match l with
  | [] => [value]
  | x :: xs => if x > value then x :: insertRev xs value else value :: x :: xs

/-- `intset_insert` from src/src/intset.c: binary-search for `value`; if
absent, insert it in front of the maximal suffix of larger entries. -/
def intset_insert (s : List Int) (value : Int) : List Int :=
  match binsearch s value 0 s.length with
  | some _ => s
  | none => (insertRev s.reverse value).reverse

/-- `intset_delete` from src/src/intset.c: binary-search for `value`; when
found at index `i`, shift the entries above `i` down one place. -/
def intset_delete (s : List Int) (value : Int) : List Int :=
  match binsearch s value 0 s.length with
  | some i => s.eraseIdx i
  | none => s

/-- `intset_equal` from src/src/intset.c: equal counts and `memcmp`-equal
contents, i.e. element-wise equality. -/
def intset_equal (s1 s2 : List Int) : Bool :=
  s1 == s2

/-- `intset_union` from src/src/intset.c: linear merge of two sorted
vectors (the C nested `while` loops copy the smaller head, copy one of two
equal heads, and drain the remainders). -/
def intset_union : List Int → List Int → List Int
  | [], l2 => l2
  | x :: xs, [] => x :: xs
  | x :: xs, y :: ys =>
    if x < y then x :: intset_union xs (y :: ys)
    else if x = y then x :: intset_union xs ys
    else y :: intset_union (x :: xs) ys
termination_by l1 l2 => l1.length + l2.length

/-- `intset_intersect` from src/src/intset.c: linear merge keeping only the
common values. -/
def intset_intersect : List Int → List Int → List Int
  | [], _ => []
  | _ :: _, [] => []
  | x :: xs, y :: ys =>
    if x < y then intset_intersect xs (y :: ys)
    else if x = y then x :: intset_intersect xs ys
    else intset_intersect (x :: xs) ys
termination_by l1 l2 => l1.length + l2.length

end Sdtgen

namespace Sdtgen

theorem sorted_getElem_lt {a : List Int} (hs : a.Sorted (· < ·)) {j k : Nat}
    (hjk : j < k) (hk : k < a.length) :
    a[j] < a[k] := by
  have := hs.rel_get_of_lt (a := ⟨j, hjk.trans hk⟩) (b := ⟨k, hk⟩) hjk
  simpa [List.get_eq_getElem] using this

theorem binsearch_some {a : List Int} {v : Int} :
    ∀ n lower upper i, upper - lower ≤ n →
      binsearch a v lower upper = some i → a[i]? = some v := by
  intro n
  induction n with
  | zero =>
    intro lower upper i hle h
    unfold binsearch at h
    rw [dif_neg (by omega)] at h
    cases h
  | succ n ih =>
    intro lower upper i hle h
    unfold binsearch at h
    by_cases hlt : lower < upper
    · rw [dif_pos hlt] at h
      rcases hx : a[lower + (upper - lower) / 2]? with _ | x
      · rw [hx] at h; cases h
      · rw [hx] at h
        simp only [] at h
        by_cases h1 : v < x
        · rw [if_pos h1] at h
          exact ih _ _ _ (by omega) h
        · rw [if_neg h1] at h
          by_cases h2 : x < v
          · rw [if_pos h2] at h
            exact ih _ _ _ (by omega) h
          · rw [if_neg h2] at h
            cases h
            have hxv : x = v := le_antisymm (not_lt.mp h1) (not_lt.mp h2)
            rw [hx, hxv]
    · rw [dif_neg hlt] at h
      cases h

theorem binsearch_complete {a : List Int} (hs : a.Sorted (· < ·)) {v : Int} :
    ∀ n lower upper, upper - lower ≤ n → upper ≤ a.length →
      ∀ k, lower ≤ k → k < upper → a[k]? = some v →
      (binsearch a v lower upper).isSome := by
  intro n
  induction n with
  | zero =>
    intro lower upper hle _ k hk1 hk2 _
    omega
  | succ n ih =>
    intro lower upper hle hlen k hk1 hk2 hkv
    have hlt : lower < upper := by omega
    have hkl : k < a.length := hk2.trans_le hlen
    have hkv2 : a[k] = v := by
      rw [List.getElem?_eq_getElem hkl] at hkv
      exact Option.some_injective _ hkv
    unfold binsearch
    rw [dif_pos hlt]
    have hm : lower + (upper - lower) / 2 < a.length := by omega
    rw [List.getElem?_eq_getElem hm]
    simp only []
    by_cases h1 : v < a[lower + (upper - lower) / 2]
    · rw [if_pos h1]
      have hkm : k < lower + (upper - lower) / 2 := by
        by_contra hge
        rcases Nat.lt_or_ge (lower + (upper - lower) / 2) k with hlt' | hge'
        · exact absurd (hkv2 ▸ sorted_getElem_lt hs hlt' hkl) (lt_asymm h1)
        · have : k = lower + (upper - lower) / 2 := by omega
          subst this
          exact absurd (hkv2 ▸ h1) (lt_irrefl _)
      exact ih lower (lower + (upper - lower) / 2) (by omega) (by omega) k hk1 hkm hkv
    · rw [if_neg h1]
      by_cases h2 : a[lower + (upper - lower) / 2] < v
      · rw [if_pos h2]
        have hkm : lower + (upper - lower) / 2 < k := by
          by_contra hge
          rcases Nat.lt_or_ge k (lower + (upper - lower) / 2) with hlt' | hge'
          · exact absurd (hkv2 ▸ sorted_getElem_lt hs hlt' hm) (lt_asymm h2)
          · have : k = lower + (upper - lower) / 2 := by omega
            subst this
            exact absurd (hkv2 ▸ h2) (lt_irrefl _)
        exact ih (lower + (upper - lower) / 2 + 1) upper (by omega) hlen k (by omega) hk2 hkv
      · rw [if_neg h2]
        simp

/-- On a strictly sorted vector, the binary search finds `v` iff it is a
member (the form used by `intset_insert`/`intset_delete`). -/
theorem binsearch_none_iff {a : List Int} (hs : a.Sorted (· < ·)) (v : Int) :
    binsearch a v 0 a.length = none ↔ v ∉ a := by
  constructor
  · intro hnone hmem
    obtain ⟨k, hk, hkv⟩ := List.mem_iff_getElem.mp hmem
    have := binsearch_complete hs a.length 0 a.length (by omega) le_rfl k
      (Nat.zero_le _) hk (by rw [List.getElem?_eq_getElem hk, hkv])
    rw [hnone] at this
    cases this
  · intro hnm
    rcases h : binsearch a v 0 a.length with _ | i
    · rfl
    · have := binsearch_some (a := a) (v := v) a.length 0 a.length i (by omega) h
      exact absurd (List.getElem?_mem this) hnm

end Sdtgen

namespace Sdtgen

theorem insertRev_mem (l : List Int) (v x : Int) :
    x ∈ insertRev l v ↔ x = v ∨ x ∈ l := by
  induction l with
  | nil => simp [insertRev]
  | cons y ys ih =>
    by_cases h : y > v
    · simp only [insertRev, if_pos h, List.mem_cons, ih]
      tauto
    · simp only [insertRev, if_neg h, List.mem_cons]

theorem insertRev_sorted {l : List Int} {v : Int}
    (hs : l.Sorted (· > ·)) (hv : v ∉ l) :
    (insertRev l v).Sorted (· > ·) := by
  induction l with
  | nil => simp [insertRev]
  | cons y ys ih =>
    rw [List.sorted_cons] at hs
    by_cases h : y > v
    · rw [insertRev, if_pos h, List.sorted_cons]
      refine ⟨?_, ih hs.2 (fun hm => hv (List.mem_cons_of_mem _ hm))⟩
      intro b hb
      rcases (insertRev_mem ys v b).mp hb with hb | hb
      · exact hb ▸ h
      · exact hs.1 b hb
    · rw [insertRev, if_neg h, List.sorted_cons]
      have hne : y ≠ v := fun he => hv (he ▸ List.mem_cons_self y ys)
      have hyv : y < v := lt_of_le_of_ne (not_lt.mp h) hne
      refine ⟨?_, List.sorted_cons.mpr hs⟩
      intro b hb
      rcases List.mem_cons.mp hb with hb | hb
      · exact hb ▸ hyv
      · exact (hs.1 b hb).trans hyv

theorem sorted_gt_reverse {l : List Int} :
    l.reverse.Sorted (· > ·) ↔ l.Sorted (· < ·) := by
  unfold List.Sorted
  rw [List.pairwise_reverse]

/-- `intset_insert` preserves the strictly-increasing invariant and realizes
set insertion. -/
theorem intset_insert_spec {s : List Int} (hs : s.Sorted (· < ·)) (v : Int) :
    (intset_insert s v).Sorted (· < ·) ∧
      ∀ x, x ∈ intset_insert s v ↔ x = v ∨ x ∈ s := by
  unfold intset_insert
  rcases h : binsearch s v 0 s.length with _ | i
  · have hnm : v ∉ s := (binsearch_none_iff hs v).mp h
    have hrev : s.reverse.Sorted (· > ·) := sorted_gt_reverse.mpr hs
    have hnm' : v ∉ s.reverse := by rwa [List.mem_reverse]
    constructor
    · rw [← sorted_gt_reverse, List.reverse_reverse]
      exact insertRev_sorted hrev hnm'
    · intro x
      rw [List.mem_reverse, insertRev_mem, List.mem_reverse]
  · have hv : v ∈ s := List.getElem?_mem (binsearch_some s.length 0 s.length i (by omega) h)
    exact ⟨hs, fun x => ⟨Or.inr, fun hx => hx.elim (fun he => he ▸ hv) id⟩⟩

/-- `intset_delete` preserves the strictly-increasing invariant and realizes
set deletion. -/
theorem intset_delete_spec {s : List Int} (hs : s.Sorted (· < ·)) (v : Int) :
    (intset_delete s v).Sorted (· < ·) ∧
      ∀ x, x ∈ intset_delete s v ↔ x ∈ s ∧ x ≠ v := by
  unfold intset_delete
  rcases h : binsearch s v 0 s.length with _ | i
  · have hnm : v ∉ s := (binsearch_none_iff hs v).mp h
    exact ⟨hs, fun x => ⟨fun hx => ⟨hx, fun he => hnm (he ▸ hx)⟩, fun hx => hx.1⟩⟩
  · have hgi : s[i]? = some v := binsearch_some s.length 0 s.length i (by omega) h
    have hil : i < s.length := by
      by_contra hge
      rw [List.getElem?_eq_none (by omega)] at hgi
      cases hgi
    have hiv : s[i] = v := by
      rw [List.getElem?_eq_getElem hil] at hgi
      exact Option.some_injective _ hgi
    constructor
    · exact List.Pairwise.eraseIdx i hs
    · intro x
      show x ∈ s.eraseIdx i ↔ _
      rw [List.eraseIdx_eq_take_drop_succ]
      constructor
      · intro hx
        rcases List.mem_append.mp hx with hx | hx
        · obtain ⟨j, hj, hjx⟩ := List.mem_iff_getElem.mp hx
          have hjt : j < i := by
            have := hj
            rw [List.length_take] at this
            omega
          rw [List.getElem_take] at hjx
          refine ⟨hjx ▸ List.getElem_mem _, ?_⟩
          rw [← hjx, ← hiv]
          exact ne_of_lt (sorted_getElem_lt hs hjt hil)
        · obtain ⟨j, hj, hjx⟩ := List.mem_iff_getElem.mp hx
          rw [List.getElem_drop] at hjx
          refine ⟨hjx ▸ List.getElem_mem _, ?_⟩
          rw [← hjx, ← hiv]
          exact (ne_of_lt (sorted_getElem_lt hs (by omega) (by
            rw [List.length_drop] at hj; omega))).symm
      · rintro ⟨hx, hxv⟩
        obtain ⟨j, hj, hjx⟩ := List.mem_iff_getElem.mp hx
        have hji : j ≠ i := by
          intro he
          subst he
          exact hxv (by rw [← hjx]; exact hiv)
        rcases Nat.lt_or_ge j i with hlt | hge
        · refine List.mem_append.mpr (Or.inl ?_)
          rw [List.mem_iff_getElem]
          exact ⟨j, by rw [List.length_take]; omega,
            by rw [List.getElem_take]; exact hjx⟩
        · have hgt : i < j := by omega
          refine List.mem_append.mpr (Or.inr ?_)
          rw [List.mem_iff_getElem]
          refine ⟨j - (i + 1), by rw [List.length_drop]; omega, ?_⟩
          rw [List.getElem_drop]
          have : i + 1 + (j - (i + 1)) = j := by omega
          simp only [this]
          exact hjx

end Sdtgen

namespace Sdtgen

theorem intset_union_nil (l2 : List Int) : intset_union [] l2 = l2 := by
  rw [intset_union]

theorem intset_union_nil_right (x : Int) (xs : List Int) :
    intset_union (x :: xs) [] = x :: xs := by
  rw [intset_union]

theorem intset_union_cons (x y : Int) (xs ys : List Int) :
    intset_union (x :: xs) (y :: ys) =
      if x < y then x :: intset_union xs (y :: ys)
      else if x = y then x :: intset_union xs ys
      else y :: intset_union (x :: xs) ys := by
  rw [intset_union]

theorem intset_intersect_nil (l2 : List Int) : intset_intersect [] l2 = [] := by
  rw [intset_intersect]

theorem intset_intersect_nil_right (x : Int) (xs : List Int) :
    intset_intersect (x :: xs) [] = [] := by
  rw [intset_intersect]

theorem intset_intersect_cons (x y : Int) (xs ys : List Int) :
    intset_intersect (x :: xs) (y :: ys) =
      if x < y then intset_intersect xs (y :: ys)
      else if x = y then x :: intset_intersect xs ys
      else intset_intersect (x :: xs) ys := by
  rw [intset_intersect]

theorem intset_union_spec_aux :
    ∀ n (l1 l2 : List Int), l1.length + l2.length ≤ n →
      l1.Sorted (· < ·) → l2.Sorted (· < ·) →
      (intset_union l1 l2).Sorted (· < ·) ∧
        ∀ x, x ∈ intset_union l1 l2 ↔ x ∈ l1 ∨ x ∈ l2 := by
  intro n
  induction n with
  | zero =>
    intro l1 l2 hlen _ _
    have h1 : l1 = [] := List.length_eq_zero.mp (by omega)
    have h2 : l2 = [] := List.length_eq_zero.mp (by omega)
    subst h1; subst h2
    simp [intset_union_nil]
  | succ n ih =>
    intro l1 l2 hlen hs1 hs2
    match l1, l2 with
    | [], l2 =>
      rw [intset_union_nil]
      refine ⟨hs2, fun z => ?_⟩
      simp
    | x :: xs, [] =>
      rw [intset_union_nil_right]
      refine ⟨hs1, fun z => ?_⟩
      simp
    | x :: xs, y :: ys =>
      rw [List.sorted_cons] at hs1 hs2
      rw [intset_union_cons]
      by_cases hxy : x < y
      · rw [if_pos hxy]
        obtain ⟨ihs, ihm⟩ := ih xs (y :: ys) (by simp at hlen ⊢; omega) hs1.2
          (List.sorted_cons.mpr hs2)
        constructor
        · rw [List.sorted_cons]
          refine ⟨?_, ihs⟩
          intro b hb
          rcases (ihm b).mp hb with hb | hb
          · exact hs1.1 b hb
          · rcases List.mem_cons.mp hb with hb | hb
            · exact hb ▸ hxy
            · exact hxy.trans (hs2.1 b hb)
        · intro z
          simp only [List.mem_cons, ihm]
          tauto
      · rw [if_neg hxy]
        by_cases hxe : x = y
        · rw [if_pos hxe]
          subst hxe
          obtain ⟨ihs, ihm⟩ := ih xs ys (by simp at hlen ⊢; omega) hs1.2 hs2.2
          constructor
          · rw [List.sorted_cons]
            refine ⟨?_, ihs⟩
            intro b hb
            rcases (ihm b).mp hb with hb | hb
            · exact hs1.1 b hb
            · exact hs2.1 b hb
          · intro z
            simp only [List.mem_cons, ihm]
            tauto
        · rw [if_neg hxe]
          have hyx : y < x := lt_of_le_of_ne (not_lt.mp hxy) (Ne.symm hxe)
          obtain ⟨ihs, ihm⟩ := ih (x :: xs) ys (by simp at hlen ⊢; omega)
            (List.sorted_cons.mpr hs1) hs2.2
          constructor
          · rw [List.sorted_cons]
            refine ⟨?_, ihs⟩
            intro b hb
            rcases (ihm b).mp hb with hb | hb
            · rcases List.mem_cons.mp hb with hb | hb
              · exact hb ▸ hyx
              · exact hyx.trans (hs1.1 b hb)
            · exact hs2.1 b hb
          · intro z
            simp only [List.mem_cons, ihm]
            tauto

theorem intset_intersect_spec_aux :
    ∀ n (l1 l2 : List Int), l1.length + l2.length ≤ n →
      l1.Sorted (· < ·) → l2.Sorted (· < ·) →
      (intset_intersect l1 l2).Sorted (· < ·) ∧
        ∀ x, x ∈ intset_intersect l1 l2 ↔ x ∈ l1 ∧ x ∈ l2 := by
  intro n
  induction n with
  | zero =>
    intro l1 l2 hlen _ _
    have h1 : l1 = [] := List.length_eq_zero.mp (by omega)
    subst h1
    simp [intset_intersect_nil]
  | succ n ih =>
    intro l1 l2 hlen hs1 hs2
    match l1, l2 with
    | [], l2 => simp [intset_intersect_nil]
    | x :: xs, [] => simp [intset_intersect_nil_right]
    | x :: xs, y :: ys =>
      rw [List.sorted_cons] at hs1 hs2
      rw [intset_intersect_cons]
      by_cases hxy : x < y
      · rw [if_pos hxy]
        obtain ⟨ihs, ihm⟩ := ih xs (y :: ys) (by simp at hlen ⊢; omega) hs1.2
          (List.sorted_cons.mpr hs2)
        refine ⟨ihs, ?_⟩
        intro z
        rw [ihm]
        constructor
        · rintro ⟨hz1, hz2⟩
          exact ⟨List.mem_cons_of_mem _ hz1, hz2⟩
        · rintro ⟨hz1, hz2⟩
          rcases List.mem_cons.mp hz1 with hz1 | hz1
          · subst hz1
            exfalso
            rcases List.mem_cons.mp hz2 with hz2 | hz2
            · exact absurd (hz2 ▸ hxy) (lt_irrefl _)
            · exact absurd (hxy.trans (hs2.1 z hz2)) (lt_irrefl _)
          · exact ⟨hz1, hz2⟩
      · rw [if_neg hxy]
        by_cases hxe : x = y
        · rw [if_pos hxe]
          subst hxe
          obtain ⟨ihs, ihm⟩ := ih xs ys (by simp at hlen ⊢; omega) hs1.2 hs2.2
          constructor
          · rw [List.sorted_cons]
            refine ⟨?_, ihs⟩
            intro b hb
            exact hs1.1 b ((ihm b).mp hb).1
          · intro z
            simp only [List.mem_cons, ihm]
            constructor
            · rintro (hz | ⟨hz1, hz2⟩)
              · exact ⟨Or.inl hz, Or.inl hz⟩
              · exact ⟨Or.inr hz1, Or.inr hz2⟩
            · rintro ⟨hz1 | hz1, hz2 | hz2⟩
              · exact Or.inl hz1
              · exact Or.inl hz1
              · exact absurd (hz2 ▸ hs1.1 z hz1) (lt_irrefl _)
              · exact Or.inr ⟨hz1, hz2⟩
        · rw [if_neg hxe]
          have hyx : y < x := lt_of_le_of_ne (not_lt.mp hxy) (Ne.symm hxe)
          obtain ⟨ihs, ihm⟩ := ih (x :: xs) ys (by simp at hlen ⊢; omega)
            (List.sorted_cons.mpr hs1) hs2.2
          refine ⟨ihs, ?_⟩
          intro z
          rw [ihm]
          constructor
          · rintro ⟨hz1, hz2⟩
            exact ⟨hz1, List.mem_cons_of_mem _ hz2⟩
          · rintro ⟨hz1, hz2⟩
            rcases List.mem_cons.mp hz2 with hz2 | hz2
            · subst hz2
              exfalso
              rcases List.mem_cons.mp hz1 with hz1 | hz1
              · exact absurd (hz1 ▸ hyx) (lt_irrefl _)
              · exact absurd (hyx.trans (hs1.1 z hz1)) (lt_irrefl _)
            · exact ⟨hz1, hz2⟩

end Sdtgen

namespace Sdtgen

/-- A symbol-table entry as used by the symbol sets of src/src/symbols.c:
the `order` field (assigned by `alloc_symbol`) is the sort key; `token`
stands for the rest of the payload. -/
structure SymbolEntry where
  order : Nat
  token : Int
deriving DecidableEq, Repr

/-- `symbolset_intersect` from src/src/symbols.c: linear merge on the
`order` keys, copying the common entries from the first set. -/
def symbolset_intersect : List SymbolEntry → List SymbolEntry → List SymbolEntry
  | [], _ => []
  | _ :: _, [] => []
  | x :: xs, y :: ys =>
    if x.order < y.order then symbolset_intersect xs (y :: ys)
    else if x.order = y.order then x :: symbolset_intersect xs ys
    else symbolset_intersect (x :: xs) ys
termination_by l1 l2 => l1.length + l2.length

theorem symbolset_intersect_nil (l2 : List SymbolEntry) :
    symbolset_intersect [] l2 = [] := by
  rw [symbolset_intersect]

theorem symbolset_intersect_nil_right (x : SymbolEntry) (xs : List SymbolEntry) :
    symbolset_intersect (x :: xs) [] = [] := by
  rw [symbolset_intersect]

theorem symbolset_intersect_cons (x y : SymbolEntry) (xs ys : List SymbolEntry) :
    symbolset_intersect (x :: xs) (y :: ys) =
      if x.order < y.order then symbolset_intersect xs (y :: ys)
      else if x.order = y.order then x :: symbolset_intersect xs ys
      else symbolset_intersect (x :: xs) ys := by
  rw [symbolset_intersect]

/-- The key order used by symbol sets. -/
def symLT (a b : SymbolEntry) : Prop := a.order < b.order

instance : DecidableRel symLT := fun a b => by
  unfold symLT; infer_instance

theorem symbolset_intersect_spec_aux :
    ∀ n (l1 l2 : List SymbolEntry), l1.length + l2.length ≤ n →
      l1.Sorted symLT → l2.Sorted symLT →
      (∀ p ∈ l1, ∀ q ∈ l2, p.order = q.order → p = q) →
      (symbolset_intersect l1 l2).Sorted symLT ∧
        ∀ x, x ∈ symbolset_intersect l1 l2 ↔ x ∈ l1 ∧ x ∈ l2 := by
  intro n
  induction n with
  | zero =>
    intro l1 l2 hlen _ _ _
    have h1 : l1 = [] := List.length_eq_zero.mp (by omega)
    subst h1
    simp [symbolset_intersect_nil]
  | succ n ih =>
    intro l1 l2 hlen hs1 hs2 hco
    match l1, l2 with
    | [], l2 => simp [symbolset_intersect_nil]
    | x :: xs, [] => simp [symbolset_intersect_nil_right]
    | x :: xs, y :: ys =>
      rw [List.sorted_cons] at hs1 hs2
      rw [symbolset_intersect_cons]
      by_cases hxy : x.order < y.order
      · rw [if_pos hxy]
        obtain ⟨ihs, ihm⟩ := ih xs (y :: ys) (by simp at hlen ⊢; omega) hs1.2
          (List.sorted_cons.mpr hs2)
          (fun p hp q hq => hco p (List.mem_cons_of_mem _ hp) q hq)
        refine ⟨ihs, ?_⟩
        intro z
        rw [ihm]
        constructor
        · rintro ⟨hz1, hz2⟩
          exact ⟨List.mem_cons_of_mem _ hz1, hz2⟩
        · rintro ⟨hz1, hz2⟩
          rcases List.mem_cons.mp hz1 with hz1 | hz1
          · subst hz1
            exfalso
            rcases List.mem_cons.mp hz2 with hz2 | hz2
            · exact absurd (hz2 ▸ hxy) (lt_irrefl _)
            · exact absurd (hxy.trans (hs2.1 z hz2)) (lt_irrefl _)
          · exact ⟨hz1, hz2⟩
      · rw [if_neg hxy]
        by_cases hxe : x.order = y.order
        · rw [if_pos hxe]
          have hxey : x = y :=
            hco x (List.mem_cons_self x xs) y (List.mem_cons_self y ys) hxe
          obtain ⟨ihs, ihm⟩ := ih xs ys (by simp at hlen ⊢; omega) hs1.2 hs2.2
            (fun p hp q hq =>
              hco p (List.mem_cons_of_mem _ hp) q (List.mem_cons_of_mem _ hq))
          constructor
          · rw [List.sorted_cons]
            refine ⟨?_, ihs⟩
            intro b hb
            exact hs1.1 b ((ihm b).mp hb).1
          · intro z
            simp only [List.mem_cons, ihm]
            constructor
            · rintro (hz | ⟨hz1, hz2⟩)
              · exact ⟨Or.inl hz, Or.inl (hz.trans hxey)⟩
              · exact ⟨Or.inr hz1, Or.inr hz2⟩
            · rintro ⟨hz1 | hz1, hz2 | hz2⟩
              · exact Or.inl hz1
              · exact Or.inl hz1
              · exfalso
                have h1 : symLT x z := hs1.1 z hz1
                unfold symLT at h1
                rw [hz2, ← hxe] at h1
                exact absurd h1 (lt_irrefl _)
              · exact Or.inr ⟨hz1, hz2⟩
        · rw [if_neg hxe]
          have hyx : y.order < x.order := lt_of_le_of_ne (not_lt.mp hxy) (Ne.symm hxe)
          obtain ⟨ihs, ihm⟩ := ih (x :: xs) ys (by simp at hlen ⊢; omega)
            (List.sorted_cons.mpr hs1) hs2.2
            (fun p hp q hq => hco p hp q (List.mem_cons_of_mem _ hq))
          refine ⟨ihs, ?_⟩
          intro z
          rw [ihm]
          constructor
          · rintro ⟨hz1, hz2⟩
            exact ⟨hz1, List.mem_cons_of_mem _ hz2⟩
          · rintro ⟨hz1, hz2⟩
            rcases List.mem_cons.mp hz2 with hz2 | hz2
            · subst hz2
              exfalso
              rcases List.mem_cons.mp hz1 with hz1 | hz1
              · exact absurd (hz1 ▸ hyx) (lt_irrefl _)
              · exact absurd (hyx.trans (hs1.1 z hz1)) (lt_irrefl _)
            · exact ⟨hz1, hz2⟩

end Sdtgen

namespace Sdtgen

/-- C8: for integer sets and symbol sets represented as sorted vectors with
strictly increasing keys (value for integers, `order` for symbols), insert,
delete, union and intersect preserve the strictly-increasing-keys
invariant, union and intersect return exactly the set union and set
intersection of their inputs, and equality holds iff the two vectors are
element-wise equal. -/
theorem sorted_set_operations_spec
    (s1 s2 : List Int) (v : Int) (l1 l2 : List SymbolEntry)
    (hs1 : s1.Sorted (· < ·)) (hs2 : s2.Sorted (· < ·))
    (hl1 : l1.Sorted symLT) (hl2 : l2.Sorted symLT)
    (hco : ∀ p ∈ l1, ∀ q ∈ l2, p.order = q.order → p = q) :
    ((intset_insert s1 v).Sorted (· < ·) ∧
      ∀ x, x ∈ intset_insert s1 v ↔ x = v ∨ x ∈ s1) ∧
    ((intset_delete s1 v).Sorted (· < ·) ∧
      ∀ x, x ∈ intset_delete s1 v ↔ x ∈ s1 ∧ x ≠ v) ∧
    ((intset_union s1 s2).Sorted (· < ·) ∧
      ∀ x, x ∈ intset_union s1 s2 ↔ x ∈ s1 ∨ x ∈ s2) ∧
    ((intset_intersect s1 s2).Sorted (· < ·) ∧
      ∀ x, x ∈ intset_intersect s1 s2 ↔ x ∈ s1 ∧ x ∈ s2) ∧
    (intset_equal s1 s2 = true ↔ s1 = s2) ∧
    ((symbolset_intersect l1 l2).Sorted symLT ∧
      ∀ x, x ∈ symbolset_intersect l1 l2 ↔ x ∈ l1 ∧ x ∈ l2) := by
  refine ⟨intset_insert_spec hs1 v, intset_delete_spec hs1 v,
    intset_union_spec_aux (s1.length + s2.length) s1 s2 le_rfl hs1 hs2,
    intset_intersect_spec_aux (s1.length + s2.length) s1 s2 le_rfl hs1 hs2,
    by simp [intset_equal],
    symbolset_intersect_spec_aux (l1.length + l2.length) l1 l2 le_rfl hl1 hl2 hco⟩

/-- Witness for `sorted_set_operations_spec` on concrete sorted vectors. -/
theorem sorted_set_operations_spec_witness :
    (([1, 3] : List Int).Sorted (· < ·) ∧ ([2, 3] : List Int).Sorted (· < ·)) ∧
    (intset_union [1, 3] [2, 3]).Sorted (· < ·) ∧
    ((3 : Int) ∈ intset_intersect [1, 3] [2, 3] ↔
      (3 : Int) ∈ ([1, 3] : List Int) ∧ (3 : Int) ∈ ([2, 3] : List Int)) := by
  have h := sorted_set_operations_spec [1, 3] [2, 3] 2
    [⟨1, 10⟩, ⟨2, 20⟩] [⟨2, 20⟩, ⟨3, 30⟩]
    (by decide) (by decide) (by decide) (by decide) (by decide)
  exact ⟨⟨by decide, by decide⟩, h.2.2.1.1, h.2.2.2.1.2 3⟩

end Sdtgen

namespace Sdtgen

/-! ## Error-repair values (`build_repair`, src/src/symbols.c)

Grammar data as `build_repair` reads it: `PRODUCTION(p).length` is the
effective RHS length and `RHSIDE(p, k)` the symbol at dot position `k`,
which is either a terminal (with its token number) or a nonterminal. -/

/-- Option bit `ERRORREPAIR` (0x0001, sdtgen_definitions.h). -/
def ERRORREPAIR : Nat := 1

/-- Option bit `DEFAULTREDUCE` (0x0002, sdtgen_definitions.h). -/
def DEFAULTREDUCE : Nat := 2

/-- A right-hand-side symbol: terminal (carrying its token number) or
nonterminal (carrying its token number). -/
inductive RSym where
  | term (token : Int)
  | nonterm (token : Int)
deriving DecidableEq, Repr

/-- The production data consulted by `build_repair`: effective RHS length
and RHS symbols of each production. -/
structure RGram where
  length : Nat → Nat
  rhs : Nat → Nat → RSym

/-- An LR item `(production, dot)`. -/
structure Item where
  prod : Nat
  dot : Nat
deriving DecidableEq, Repr

/-- A CFSM state's itemset: kernel items first (indices `< kernel`),
closure items after. -/
structure StateCfg where
  items : List Item
  kernel : Nat

/-- One step of the closure scan inside `build_repair`: a completed item
yields the negated production number (reduce), an item with the dot before
a terminal yields that token number (shift), anything else is skipped. -/
def itemRepair (g : RGram) (it : Item) : Option Int :=
  if it.dot ≥ g.length it.prod then
    some (-(it.prod : Int))
  else
    match g.rhs it.prod it.dot with
    | .term tok => some tok
    | .nonterm _ => none

/-- `build_repair` from src/src/symbols.c, for one state: when error repair
is enabled, the value is determined by the state's first item — reduce if
its dot is at/past the effective length, the token number if the dot is
before a terminal, and otherwise the first qualifying closure item
(scanned from index `kernel` on); states with no qualifying item keep the
`memset` value 0.  With error repair disabled every state keeps 0. -/
def build_repair (options : Nat) (g : RGram) (st : StateCfg) : Int :=
  if options &&& ERRORREPAIR ≠ 0 then
    match st.items with
    | [] => 0
    | i0 :: _ =>
      if i0.dot ≥ g.length i0.prod then
        -(i0.prod : Int)
      else
        match g.rhs i0.prod i0.dot with
        | .term tok => tok
        | .nonterm _ => ((st.items.drop st.kernel).findSome? (itemRepair g)).getD 0
  else
    0

theorem findSome?_eq_of_first {α β : Type} (f : α → Option β) {v : β} :
    ∀ (l : List α) (k : Nat) (hk : k < l.length),
      (∀ j (hj : j < k), f l[j] = none) →
      f l[k] = some v →
      l.findSome? f = some v := by
  intro l
  induction l with
  | nil => intro k hk; simp at hk
  | cons x xs ih =>
    intro k hk hnone hsome
    match k with
    | 0 =>
      simp only [List.getElem_cons_zero] at hsome
      rw [List.findSome?_cons, hsome]
    | k + 1 =>
      have hx : f x = none := hnone 0 (Nat.succ_pos k)
      rw [List.findSome?_cons, hx]
      exact ih k (by simpa using hk)
        (fun j hj => hnone (j + 1) (by omega)) (by simpa using hsome)

end Sdtgen

namespace Sdtgen

/-- C4: for every CFSM state, when error repair is enabled the error-repair
value is determined by the first item: reduce (negated production) when its
dot is at/past the effective length, the terminal's token number when the
dot is immediately before a terminal, and otherwise the value of the first
closure item (scanned in order from the kernel boundary) that is either
completed or has its dot before a terminal. -/
theorem build_repair_spec (options : Nat) (g : RGram) (st : StateCfg)
    (hopt : options &&& ERRORREPAIR ≠ 0)
    (i0 : Item) (rest : List Item) (hitems : st.items = i0 :: rest) :
    (i0.dot ≥ g.length i0.prod →
      build_repair options g st = -(i0.prod : Int)) ∧
    (∀ tok, i0.dot < g.length i0.prod → g.rhs i0.prod i0.dot = .term tok →
      build_repair options g st = tok) ∧
    (∀ nt, i0.dot < g.length i0.prod → g.rhs i0.prod i0.dot = .nonterm nt →
      ∀ (k : Nat) (v : Int) (hk : k < (st.items.drop st.kernel).length),
        (∀ j (hj : j < k),
          itemRepair g (st.items.drop st.kernel)[j] = none) →
        itemRepair g (st.items.drop st.kernel)[k] = some v →
        build_repair options g st = v) := by
  obtain ⟨items, kernel⟩ := st
  simp only [] at hitems
  subst hitems
  unfold build_repair
  rw [if_pos hopt]
  simp only []
  refine ⟨?_, ?_, ?_⟩
  · intro hge
    rw [if_pos hge]
  · intro tok hlt hterm
    rw [if_neg (not_le.mpr hlt), hterm]
  · intro nt hlt hnt k v hk hnone hsome
    rw [if_neg (not_le.mpr hlt), hnt]
    simp only []
    have hfs := findSome?_eq_of_first (itemRepair g) ((i0 :: rest).drop kernel) k hk
      hnone hsome
    rw [hfs]
    rfl

/-- A grammar and state exercising the closure-scan case of
`build_repair`: production 1 is completed at dot 0, production 2 has a
nonterminal first. -/
def repairGram : RGram where
  length := fun p => if p = 1 then 0 else 1
  rhs := fun p _ => if p = 2 then .nonterm 5 else .term 7

/-- A state whose first (kernel) item sits before a nonterminal so the
closure scan decides the repair value. -/
def repairState : StateCfg where
  items := [⟨2, 0⟩, ⟨1, 0⟩]
  kernel := 1

/-- Witness for `build_repair_spec`: with error repair enabled, the state
`repairState` takes its repair value −1 from its first closure item (a
reduce by production 1). -/
theorem build_repair_spec_witness :
    ((1 : Nat) &&& ERRORREPAIR ≠ 0) ∧
    build_repair 1 repairGram repairState = -1 := by
  have h := build_repair_spec 1 repairGram repairState (by decide) ⟨2, 0⟩ [⟨1, 0⟩] rfl
  refine ⟨by decide, ?_⟩
  exact h.2.2 5 (by decide) (by decide) 0 (-1) (by decide)
    (fun j hj => absurd hj (by omega)) (by decide)

end Sdtgen

namespace Sdtgen

/-! ## Default shift-reduce decision (`generate_parser`/`build_table`,
src/src/symbols.c)

`generate_parser` scans each state and token, counting the items whose dot
sits immediately before that token (`found` keeps the last such item).
When the `DEFAULTREDUCE` option is set, the count is exactly one, and the
dot is at effective-length − 1, no goto state is generated; `build_table`
then encodes the item (which, having no goto, has no descendant) as a
shiftreduce carrying the production number directly. -/

/-- The token number carried by an RHS symbol
(`RHSIDE(...)->value.value.token`). -/
def symToken : RSym → Int
  | .term tok => tok
  | .nonterm tok => tok

/-- Does `generate_parser`'s inner loop count this item for token `t`
(`dot < length` and `RHSIDE(prod, dot)` carries token `t`)? -/
def dotMatches (g : RGram) (t : Int) (it : Item) : Bool :=
  decide (it.dot < g.length it.prod) && (symToken (g.rhs it.prod it.dot) == t)

/-- `count` in `generate_parser`: how many items of the state have their
dot immediately before token `t`. -/
def gotoCount (g : RGram) (items : List Item) (t : Int) : Nat :=
  (items.filter (dotMatches g t)).length

/-- `found` in `generate_parser`: the last matching item. -/
def gotoFound (g : RGram) (items : List Item) (t : Int) : Option Item :=
  (items.filter (dotMatches g t)).getLast?

/-- The goto-generation decision of `generate_parser` for `(state, t)`:
skip (`continue`) when `DEFAULTREDUCE` is set, exactly one item matches,
and its dot is at effective-length − 1; otherwise generate a goto whenever
any item matches. -/
def gotoGenerated (options : Nat) (g : RGram) (items : List Item) (t : Int) : Bool :=
  match gotoFound g items t with
  | none => false
  | some it =>
    if options &&& DEFAULTREDUCE ≠ 0 ∧ gotoCount g items t = 1 ∧
        (it.dot : Int) = (g.length it.prod : Int) - 1 then
      false
    else
      true

/-- The shift/shiftreduce action `build_table` stores for an item:
`SHIFT_OFFSET + descendant` when the item has a descendant state, the bare
production number (shiftreduce) when the dot is before a token with no
descendant, and no contribution otherwise. -/
def build_table_action (g : RGram) (it : Item) (descendant : Nat) : Int :=
  if descendant ≠ 0 then
    SHIFT_OFFSET + (descendant : Int)
  else if it.dot < g.length it.prod then
    (it.prod : Int)
  else
    0

/-- A one-production grammar whose single item sits immediately before
terminal 7 at the last RHS position. -/
def srGram : RGram where
  length := fun _ => 1
  rhs := fun _ _ => .term 7

/-- C6, counterexample: without the `DEFAULTREDUCE` (SHIFTREDUCE) option,
a state whose unique item dots terminal 7 at effective-length − 1 still
generates a goto state — the claim holds only when the option is set. -/
theorem default_shiftreduce_counterexample :
    gotoCount srGram [⟨1, 0⟩] 7 = 1 ∧
    gotoFound srGram [⟨1, 0⟩] 7 = some ⟨1, 0⟩ ∧
    (((1 : Nat) : Int) - 1 = ((0 : Nat) : Int)) ∧
    ((0 : Nat) &&& DEFAULTREDUCE = 0) ∧
    gotoGenerated 0 srGram [⟨1, 0⟩] 7 = true := by
  refine ⟨?_, ?_, ?_, ?_, ?_⟩ <;> decide

/-- C6 (amended): when the `DEFAULTREDUCE` option is enabled and exactly
one item of the state has its dot immediately before token `t` with the
dot at effective-length − 1, no goto state is generated for `(state, t)`,
and `build_table` encodes that (descendant-less) item as a shift-reduce
carrying the production number directly (a value `v` with
`0 < v ≤ SHIFT_OFFSET`). -/
theorem default_shiftreduce_spec (options : Nat) (g : RGram)
    (items : List Item) (t : Int) (it : Item)
    (hopt : options &&& DEFAULTREDUCE ≠ 0)
    (hfound : gotoFound g items t = some it)
    (hcount : gotoCount g items t = 1)
    (hlast : (it.dot : Int) = (g.length it.prod : Int) - 1)
    (hprod : 0 < it.prod ∧ (it.prod : Int) ≤ SHIFT_OFFSET) :
    gotoGenerated options g items t = false ∧
    build_table_action g it 0 = (it.prod : Int) ∧
    0 < build_table_action g it 0 ∧
    build_table_action g it 0 ≤ SHIFT_OFFSET := by
  have hmem : it ∈ items.filter (dotMatches g t) := by
    have := hfound
    unfold gotoFound at this
    exact List.mem_of_mem_getLast? this
  have hmatch : dotMatches g t it = true := (List.mem_filter.mp hmem).2
  have hdot : it.dot < g.length it.prod := by
    unfold dotMatches at hmatch
    exact of_decide_eq_true (Bool.and_elim_left hmatch)
  refine ⟨?_, ?_, ?_, ?_⟩
  · unfold gotoGenerated
    rw [hfound]
    simp only []
    rw [if_pos ⟨hopt, hcount, hlast⟩]
  · unfold build_table_action
    rw [if_neg (by simp), if_pos hdot]
  · unfold build_table_action
    rw [if_neg (by simp), if_pos hdot]
    exact_mod_cast hprod.1
  · unfold build_table_action
    rw [if_neg (by simp), if_pos hdot]
    exact hprod.2

/-- Witness for `default_shiftreduce_spec`: with the option enabled the
same configuration generates no goto and the shiftreduce action 1. -/
theorem default_shiftreduce_spec_witness :
    ((2 : Nat) &&& DEFAULTREDUCE ≠ 0) ∧
    gotoGenerated 2 srGram [⟨1, 0⟩] 7 = false ∧
    build_table_action srGram ⟨1, 0⟩ 0 = 1 := by
  have h := default_shiftreduce_spec 2 srGram [⟨1, 0⟩] 7 ⟨1, 0⟩
    (by decide) (by decide) (by decide) (by decide) ⟨by decide, by decide⟩
  exact ⟨by decide, h.1, h.2.1⟩

end Sdtgen

namespace Sdtgen

/-! ## Least-cost repair candidate selection (`repair_error`, src/lib/parser.c)

The search step of `repair_error` scans tokens 1..tnumber in ascending
order; a token is a candidate when `followset[token] == 0`, it differs
from the first continuation token, and `look_ahead(token, 0, 1)` accepts —
abstracted here as the predicate `eligible`.  Its repair cost
(`delete + inscost[token]` plus the context penalty) is abstracted as
`costOf`.  A candidate replaces the current cheapest insertion only when
strictly cheaper (`cost < insert.cost`). -/

/-- `struct errorrepair` from parser_definitions.h (`prefix` renamed). -/
structure ErrRepair where
  token : Int
  pfx : Int
  cost : Int
deriving DecidableEq, Repr

/-- The token numbers `1..tnumber` scanned by the candidate loop. -/
def tokenRange (tnumber : Nat) : List Int :=
  (List.range' 1 tnumber).map Int.ofNat

/-- One iteration of the candidate loop: update the running best insertion
only when the candidate is eligible and strictly cheaper. -/
def scanStep (eligible : Int → Bool) (costOf : Int → Int)
    (acc : ErrRepair) (tok : Int) : ErrRepair :=
  if eligible tok ∧ costOf tok < acc.cost then
    { token := tok, pfx := -1, cost := costOf tok }
  else
    acc

/-- The single-token-insertion scan of `repair_error`: fold the candidate
loop over tokens 1..tnumber starting from
`insert.token = −1, insert.prefix = −1, insert.cost = MAXCOST`. -/
def scan_insert (tnumber : Nat) (eligible : Int → Bool) (costOf : Int → Int) : ErrRepair :=
  (tokenRange tnumber).foldl (scanStep eligible costOf) ⟨-1, -1, MAXCOST⟩

/-- The adoption step of `repair_error`: when either new repair beats the
running best, take the insertion if its cost is ≤ the prefix repair's
(`choice = (insert.cost <= prefix.cost) ? insert : prefix`). -/
def adopt_repair (choice insert pfx : ErrRepair) : ErrRepair :=
  if insert.cost < choice.cost ∨ pfx.cost < choice.cost then
    if insert.cost ≤ pfx.cost then insert else pfx
  else
    choice

theorem scanFold_cost_le (eligible : Int → Bool) (costOf : Int → Int) :
    ∀ (l : List Int) (acc : ErrRepair),
      (l.foldl (scanStep eligible costOf) acc).cost ≤ acc.cost ∧
      ∀ k ∈ l, eligible k = true →
        (l.foldl (scanStep eligible costOf) acc).cost ≤ costOf k := by
  intro l
  induction l with
  | nil => exact fun acc => ⟨le_rfl, by simp⟩
  | cons x xs ih =>
    intro acc
    rw [List.foldl_cons]
    by_cases hup : eligible x ∧ costOf x < acc.cost
    · have hstep : scanStep eligible costOf acc x = ⟨x, -1, costOf x⟩ := by
        unfold scanStep; rw [if_pos hup]
      rw [hstep]
      refine ⟨(ih _).1.trans hup.2.le, ?_⟩
      intro k hk he
      rcases List.mem_cons.mp hk with hk | hk
      · subst hk; exact (ih _).1
      · exact (ih _).2 k hk he
    · have hstep : scanStep eligible costOf acc x = acc := by
        unfold scanStep; rw [if_neg hup]
      rw [hstep]
      refine ⟨(ih _).1, ?_⟩
      intro k hk he
      rcases List.mem_cons.mp hk with hk | hk
      · subst hk
        have : ¬ costOf k < acc.cost := fun hc => hup ⟨he, hc⟩
        exact (ih _).1.trans (not_lt.mp this)
      · exact (ih _).2 k hk he

theorem scanFold_eq_or_lt (eligible : Int → Bool) (costOf : Int → Int) :
    ∀ (l : List Int) (acc : ErrRepair),
      l.foldl (scanStep eligible costOf) acc = acc ∨
      (l.foldl (scanStep eligible costOf) acc).cost < acc.cost := by
  intro l
  induction l with
  | nil => exact fun acc => Or.inl rfl
  | cons x xs ih =>
    intro acc
    rw [List.foldl_cons]
    by_cases hup : eligible x ∧ costOf x < acc.cost
    · have hstep : scanStep eligible costOf acc x = ⟨x, -1, costOf x⟩ := by
        unfold scanStep; rw [if_pos hup]
      rw [hstep]
      rcases ih ⟨x, -1, costOf x⟩ with h | h
      · exact Or.inr (by rw [h]; exact hup.2)
      · exact Or.inr (h.trans hup.2)
    · have hstep : scanStep eligible costOf acc x = acc := by
        unfold scanStep; rw [if_neg hup]
      rw [hstep]
      exact ih acc

theorem scanFold_first_min (eligible : Int → Bool) (costOf : Int → Int) :
    ∀ (l : List Int) (acc : ErrRepair), l.Pairwise (· < ·) →
      (∀ k ∈ l, acc.token < k) →
      ∀ k ∈ l, eligible k = true →
        costOf k = (l.foldl (scanStep eligible costOf) acc).cost →
        (l.foldl (scanStep eligible costOf) acc).token ≤ k := by
  intro l
  induction l with
  | nil => intro acc _ _ k hk; cases hk
  | cons x xs ih =>
    intro acc hsort hacc k hk he hc
    rw [List.pairwise_cons] at hsort
    rw [List.foldl_cons] at hc ⊢
    by_cases hup : eligible x ∧ costOf x < acc.cost
    · have hstep : scanStep eligible costOf acc x = ⟨x, -1, costOf x⟩ := by
        unfold scanStep; rw [if_pos hup]
      rw [hstep] at hc ⊢
      rcases List.mem_cons.mp hk with hk | hk
      · subst hk
        rcases scanFold_eq_or_lt eligible costOf xs ⟨k, -1, costOf k⟩ with h | h
        · rw [h]
        · rw [← hc] at h
          exact absurd h (lt_irrefl _)
      · exact ih ⟨x, -1, costOf x⟩ hsort.2 (fun j hj => hsort.1 j hj) k hk he hc
    · have hstep : scanStep eligible costOf acc x = acc := by
        unfold scanStep; rw [if_neg hup]
      rw [hstep] at hc ⊢
      rcases List.mem_cons.mp hk with hk | hk
      · subst hk
        have hnl : ¬ costOf k < acc.cost := fun hcl => hup ⟨he, hcl⟩
        rcases scanFold_eq_or_lt eligible costOf xs acc with h | h
        · rw [h]
          exact (hacc k (List.mem_cons_self _ _)).le
        · have h1 := (scanFold_cost_le eligible costOf xs acc).1
          rw [← hc] at h
          exact absurd (h.trans_le (not_lt.mp hnl)) (lt_irrefl _)
      · exact ih acc hsort.2
          (fun j hj => hacc j (List.mem_cons_of_mem _ hj)) k hk he hc

theorem tokenRange_pairwise (tnumber : Nat) :
    (tokenRange tnumber).Pairwise (· < ·) := by
  unfold tokenRange
  rw [List.pairwise_map]
  exact (List.pairwise_lt_range' 1 tnumber).imp (fun hab => Int.ofNat_lt.mpr hab)

theorem tokenRange_pos (tnumber : Nat) :
    ∀ k ∈ tokenRange tnumber, (0 : Int) < k := by
  intro k hk
  unfold tokenRange at hk
  obtain ⟨n, hn, rfl⟩ := List.mem_map.mp hk
  rw [List.mem_range'] at hn
  obtain ⟨i, _, rfl⟩ := hn
  exact Int.ofNat_pos.mpr (by omega)

end Sdtgen

namespace Sdtgen

/-- C10: the repair search is deterministically tie-broken — the candidate
scan replaces the running cheapest insertion only when strictly cheaper,
so the result is cost-minimal over all eligible tokens and, among
equal-cost candidates, carries the lowest token number; and when the best
single-token insertion and the continuation-prefix insertion have equal
cost (and one of them beats the running best), the adoption step chooses
the single-token insertion. -/
theorem repair_tiebreak_spec (tnumber : Nat) (eligible : Int → Bool)
    (costOf : Int → Int) (choice pfx : ErrRepair) :
    (∀ k ∈ tokenRange tnumber, eligible k = true →
      (scan_insert tnumber eligible costOf).cost ≤ costOf k) ∧
    (∀ k ∈ tokenRange tnumber, eligible k = true →
      costOf k = (scan_insert tnumber eligible costOf).cost →
      (scan_insert tnumber eligible costOf).token ≤ k) ∧
    ((scan_insert tnumber eligible costOf).cost = pfx.cost →
      (scan_insert tnumber eligible costOf).cost < choice.cost →
      adopt_repair choice (scan_insert tnumber eligible costOf) pfx =
        scan_insert tnumber eligible costOf) := by
  refine ⟨?_, ?_, ?_⟩
  · intro k hk he
    exact (scanFold_cost_le eligible costOf (tokenRange tnumber) ⟨-1, -1, MAXCOST⟩).2 k hk he
  · intro k hk he hc
    refine scanFold_first_min eligible costOf (tokenRange tnumber) ⟨-1, -1, MAXCOST⟩
      (tokenRange_pairwise tnumber) ?_ k hk he hc
    intro j hj
    exact lt_trans (by norm_num) (tokenRange_pos tnumber j hj)
  · intro heq hlt
    unfold adopt_repair
    rw [if_pos (Or.inl hlt), if_pos (le_of_eq heq)]

/-- Concrete eligibility for the witness: tokens 2 and 3 qualify. -/
def eligTwoThree : Int → Bool := fun k => k == 2 || k == 3

/-- Concrete constant candidate cost for the witness. -/
def costFive : Int → Int := fun _ => 5

/-- Witness for `repair_tiebreak_spec`: with candidates 2 and 3 both at
cost 5, the scan keeps token 2, and at a cost tie with a prefix repair the
insertion (token 2) is adopted. -/
theorem repair_tiebreak_spec_witness :
    scan_insert 3 eligTwoThree costFive = ⟨2, -1, 5⟩ ∧
    adopt_repair ⟨-1, -1, 10⟩ (scan_insert 3 eligTwoThree costFive) ⟨-1, 4, 5⟩ =
      scan_insert 3 eligTwoThree costFive := by
  have h := repair_tiebreak_spec 3 eligTwoThree costFive ⟨-1, -1, 10⟩ ⟨-1, 4, 5⟩
  exact ⟨by decide, h.2.2 (by decide) (by decide)⟩

end Sdtgen

namespace Sdtgen

/-! ## Queued-reduce drain (`perform_reduces`/`parse_input`, src/lib/parser.c)

The driver postpones reduce actions on a queue (`struct reduceentry`:
production number, stack pointer after the RHS is popped, and the state
the LHS shifts to).  When a terminal is about to be shifted, the queue is
drained in FIFO order; user-visible side effects (semantic-action
callbacks and `free`s of installed symbol strings) are modelled as an
event trace.  The parse stack is modelled with its top at the list head. -/

/-- A buffer position (`struct location`): the owning buffer's sequence
number and the offset within it. -/
structure Loc where
  buford : Int
  offset : Int
deriving DecidableEq, Repr

/-- `struct parseentry`: one entry on the parse stack. -/
structure PStackEntry where
  state : Int
  pwhere : Loc
  token : Int
  symbol : Option String
deriving DecidableEq, Repr

/-- `struct reduceentry`: one entry in the reduce queue. -/
structure RedEntry where
  number : Nat
  pointer : Nat
  state : Int
deriving DecidableEq, Repr

/-- `struct tokenentry`: one entry on the token queue. -/
structure TokEntry where
  token : Int
  symbol : Option String
  locus : Loc
  twhere : Loc
deriving DecidableEq, Repr

/-- The per-production tables `semantics` and `lhsymbol` read by
`perform_reduces`. -/
structure RunTbl where
  semantics : Nat → Int
  lhsymbol : Nat → Int

/-- Observable side effects of draining the reduce queue: a user
semantic-action callback, or the `free` of a popped entry's symbol. -/
inductive REvent where
  | callback (sem : Int)
  | freeSym (sym : Option String)
deriving DecidableEq, Repr

/-- The popping loop of `perform_reduces`
(`while (PARCOUNT > REDQUEUE(i).pointer) free(PARSTACK(--PARCOUNT).symbol)`):
pop entries, emitting a free event for each, until the stack height is the
recorded pointer. -/
def popTo : List PStackEntry → Nat → List PStackEntry × List REvent
  | [], _ => ([], [])
  | e :: rest, p =>
    if (e :: rest).length > p then
      let r := popTo rest p
      (r.1, .freeSym e.symbol :: r.2)
    else
      (e :: rest, [])

/-- One queued reduce inside `perform_reduces`: invoke the callback when
the semantic-action number is nonzero, pop the recorded RHS extent, then
push the LHS symbol with the shared location `w` and the recorded state. -/
def reduceOne (rt : RunTbl) (w : Loc) (stack : List PStackEntry) (r : RedEntry) :
    List PStackEntry × List REvent :=
  let evs0 := if rt.semantics r.number ≠ 0 then [REvent.callback (rt.semantics r.number)] else []
  let p := popTo stack r.pointer
  (⟨r.state, w, rt.lhsymbol r.number, none⟩ :: p.1, evs0 ++ p.2)

/-- `perform_reduces` from src/lib/parser.c: drain the queue in FIFO
order; afterwards the queue is empty (`REDCOUNT = 0`). -/
def perform_reduces (rt : RunTbl) (w : Loc) :
    List RedEntry → List PStackEntry → List PStackEntry × List REvent
  | [], stack => (stack, [])
  | r :: rs, stack =>
    let s1 := reduceOne rt w stack r
    let s2 := perform_reduces rt w rs s1.1
    (s2.1, s1.2 ++ s2.2)

/-- The result of the shift/shift-reduce branch of `parse_input`. -/
structure ShiftResult where
  parstack : List PStackEntry
  redqueue : List RedEntry
  tknqueue : List TokEntry
  events : List REvent
  state : Int
deriving Repr

/-- The shift/shift-reduce branch of `parse_input` (src/lib/parser.c): read
the location of the parse-stack top, drain the reduce queue with it, push
the shifted terminal (state 0 for the shift half of a shiftreduce), and
advance the token queue.  `none` when stack or token queue is empty (the C
driver guarantees both nonempty). -/
def parse_shift_step (rt : RunTbl) (isShift : Bool) (entry : Int)
    (parstack : List PStackEntry) (redqueue : List RedEntry)
    (tknqueue : List TokEntry) : Option ShiftResult :=
  match parstack, tknqueue with
  | top :: rest, tok :: restTok =>
    let d := perform_reduces rt top.pwhere redqueue (top :: rest)
    let newState := if isShift then entry else 0
    some { parstack := ⟨newState, tok.twhere, tok.token, tok.symbol⟩ :: d.1
         , redqueue := []
         , tknqueue := restTok
         , events := d.2
         , state := newState }
  | _, _ => none

/-- The drain as the specification describes it: for each queued reduce in
FIFO order, call the callback when the semantic-action number is nonzero,
pop the recorded RHS extent (`take`/`drop` at the recorded pointer,
freeing the popped symbols), and push the LHS with the shared location. -/
def drainSpec (rt : RunTbl) (w : Loc) :
    List RedEntry → List PStackEntry → List PStackEntry × List REvent
  | [], stack => (stack, [])
  | r :: rs, stack =>
    let popped := stack.length - r.pointer
    let evs := (if rt.semantics r.number ≠ 0 then [REvent.callback (rt.semantics r.number)] else [])
      ++ (stack.take popped).map (fun e => REvent.freeSym e.symbol)
    let s2 := drainSpec rt w rs (⟨r.state, w, rt.lhsymbol r.number, none⟩ :: stack.drop popped)
    (s2.1, evs ++ s2.2)

theorem popTo_eq (p : Nat) :
    ∀ s : List PStackEntry,
      popTo s p = (s.drop (s.length - p),
        (s.take (s.length - p)).map (fun e => REvent.freeSym e.symbol)) := by
  intro s
  induction s with
  | nil =>
    rw [popTo]
    simp
  | cons e rest ih =>
    rw [popTo]
    by_cases h : (e :: rest).length > p
    · rw [if_pos h]
      simp only [ih]
      have hlen : (e :: rest).length - p = (rest.length - p) + 1 := by
        simp at h ⊢
        omega
      rw [hlen]
      simp
    · rw [if_neg h]
      have hlen : (e :: rest).length - p = 0 := by
        simp at h ⊢
        omega
      rw [hlen]
      simp

/-- `perform_reduces` coincides with the specification-level drain. -/
theorem perform_reduces_eq_drainSpec (rt : RunTbl) (w : Loc) :
    ∀ (queue : List RedEntry) (stack : List PStackEntry),
      perform_reduces rt w queue stack = drainSpec rt w queue stack := by
  intro queue
  induction queue with
  | nil => intro stack; rfl
  | cons r rs ih =>
    intro stack
    rw [perform_reduces, drainSpec]
    simp only [reduceOne, popTo_eq, ih]

end Sdtgen

namespace Sdtgen

/-- Is an event a semantic-action callback? -/
def isCallback : REvent → Bool
  | .callback _ => true
  | .freeSym _ => false

theorem filter_isCallback_freeSym (l : List PStackEntry) :
    (l.map (fun e => REvent.freeSym e.symbol)).filter isCallback = [] := by
  induction l with
  | nil => rfl
  | cons e rest ih => simp [isCallback, ih]

theorem perform_reduces_callbacks (rt : RunTbl) (w : Loc) :
    ∀ (queue : List RedEntry) (stack : List PStackEntry),
      (perform_reduces rt w queue stack).2.filter isCallback =
        queue.filterMap (fun r =>
          if rt.semantics r.number ≠ 0 then
            some (REvent.callback (rt.semantics r.number))
          else
            none) := by
  intro queue
  induction queue with
  | nil => intro stack; rfl
  | cons r rs ih =>
    intro stack
    rw [perform_reduces]
    simp only [reduceOne, popTo_eq, List.filterMap_cons]
    by_cases hsem : rt.semantics r.number ≠ 0
    · rw [if_pos hsem, if_pos hsem]
      simp only [List.filter_append, filter_isCallback_freeSym, ih]
      simp [isCallback]
    · rw [if_neg hsem, if_neg hsem]
      simp only [List.filter_append, filter_isCallback_freeSym, ih]
      simp

theorem drainSpec_stack_entries (rt : RunTbl) (w : Loc) :
    ∀ (queue : List RedEntry) (stack : List PStackEntry),
      ∀ e ∈ (drainSpec rt w queue stack).1,
        e ∈ stack ∨ (e.pwhere = w ∧ e.symbol = none) := by
  intro queue
  induction queue with
  | nil => intro stack e he; exact Or.inl he
  | cons r rs ih =>
    intro stack e he
    rw [drainSpec] at he
    simp only [] at he
    rcases ih _ e he with hm | hp
    · rcases List.mem_cons.mp hm with hm | hm
      · exact Or.inr (by rw [hm]; exact ⟨rfl, rfl⟩)
      · exact Or.inl (List.drop_subset _ _ hm)
    · exact Or.inr hp

/-- C2: when the driver decodes a shift or shift-reduce action, it first
drains the entire reduce queue in FIFO order — invoking the user callback
exactly for the queued reduces with nonzero semantic-action numbers,
popping each recorded RHS extent (freeing the popped installed symbols)
and pushing the LHS with the location of the pre-drain parse-stack top —
and only after the queue is empty pushes the shifted terminal and advances
the token queue. -/
theorem parse_shift_drains_reduces (rt : RunTbl) (isShift : Bool) (entry : Int)
    (top : PStackEntry) (rest : List PStackEntry) (queue : List RedEntry)
    (tok : TokEntry) (restTok : List TokEntry) (res : ShiftResult)
    (hres : parse_shift_step rt isShift entry (top :: rest) queue (tok :: restTok) = some res) :
    res.redqueue = [] ∧
    res.parstack = ⟨(if isShift then entry else 0), tok.twhere, tok.token, tok.symbol⟩ ::
      (drainSpec rt top.pwhere queue (top :: rest)).1 ∧
    res.tknqueue = restTok ∧
    res.events = (drainSpec rt top.pwhere queue (top :: rest)).2 ∧
    res.events.filter isCallback =
      queue.filterMap (fun r =>
        if rt.semantics r.number ≠ 0 then
          some (REvent.callback (rt.semantics r.number))
        else
          none) ∧
    (∀ e ∈ (drainSpec rt top.pwhere queue (top :: rest)).1,
      e ∈ top :: rest ∨ (e.pwhere = top.pwhere ∧ e.symbol = none)) := by
  unfold parse_shift_step at hres
  simp only [Option.some_inj] at hres
  subst hres
  refine ⟨rfl, ?_, rfl, ?_, ?_, ?_⟩
  · simp only [perform_reduces_eq_drainSpec]
  · simp only [perform_reduces_eq_drainSpec]
  · simp only [perform_reduces_callbacks]
  · exact drainSpec_stack_entries rt top.pwhere queue (top :: rest)

/-- Tables for the `parse_shift_drains_reduces` witness: production 1 has
semantic action 7 and LHS token 100, production 2 no semantic action. -/
def rtDemo : RunTbl where
  semantics := fun n => if n = 1 then 7 else 0
  lhsymbol := fun n => if n = 1 then 100 else 101

/-- The concrete outcome of the shift step for the witness run. -/
def shiftDemoResult : ShiftResult where
  parstack := [⟨6, ⟨0, 7⟩, 8, none⟩, ⟨5, ⟨0, 5⟩, 101, none⟩, ⟨1, ⟨0, 0⟩, 0, none⟩]
  redqueue := []
  tknqueue := []
  events := [.callback 7, .freeSym none, .freeSym none]
  state := 6

/-- Witness for `parse_shift_drains_reduces` on a two-entry stack, a
two-reduce queue and one lookahead token: the queue empties, exactly one
callback (semantic action 7) fires, and the terminal lands on the drained
stack. -/
theorem parse_shift_drains_reduces_witness :
    parse_shift_step rtDemo true 6
        [⟨3, ⟨0, 5⟩, 9, none⟩, ⟨1, ⟨0, 0⟩, 0, none⟩]
        [⟨1, 1, 4⟩, ⟨2, 1, 5⟩]
        [⟨8, none, ⟨0, 6⟩, ⟨0, 7⟩⟩] = some shiftDemoResult ∧
    shiftDemoResult.redqueue = [] ∧
    shiftDemoResult.tknqueue = [] ∧
    shiftDemoResult.events.filter isCallback = [REvent.callback 7] := by
  have h := parse_shift_drains_reduces rtDemo true 6
    ⟨3, ⟨0, 5⟩, 9, none⟩ [⟨1, ⟨0, 0⟩, 0, none⟩]
    [⟨1, 1, 4⟩, ⟨2, 1, 5⟩]
    ⟨8, none, ⟨0, 6⟩, ⟨0, 7⟩⟩ [] shiftDemoResult rfl
  refine ⟨rfl, h.1, h.2.2.1, ?_⟩
  rw [h.2.2.2.2.1]
  decide

end Sdtgen

namespace Sdtgen

/-! ## Fatal syntax errors (`error_value`/`repair_error`, src/lib/parser.c)

`repair_error` first copies the parse-stack states and applies queued
reduces while the top is a shift-reduce placeholder (state 0), so the top
is a real state; `build_continuation` then consults the error-repair table
through `error_value`, whose first step is the fatality check: a zero
repair value records "Syntax error" at the lookahead token, writes every
source line through the one containing that token, and exits with status
1.  `write_line` is modelled by the list of successive `unwritten`
line-start positions; buffers are identified by their `order`. -/

/-- The line-writing loop's condition
(`unwritten.buffer->order < locus.buffer->order ||
  unwritten.buffer == locus.buffer && unwritten.offset <= locus.offset`). -/
def locLEb (u c : Loc) : Bool :=
  decide (u.buford < c.buford) || (u.buford == c.buford && decide (u.offset ≤ c.offset))

/-- Strict ordering of line-start positions (buffer order, then offset). -/
def locLT (u c : Loc) : Prop :=
  u.buford < c.buford ∨ (u.buford = c.buford ∧ u.offset < c.offset)

instance : DecidableRel locLT := fun u c => by
  unfold locLT; infer_instance

/-- The stack-settling loop of `repair_error`: while the top state is the
shift-reduce placeholder 0, truncate to the next queued reduce's recorded
pointer and push its state.  `none` models the C reading past the queue or
an empty stack. -/
def settle_stack : List RedEntry → List Int → Option (List Int)
  | _, [] => none
  | [], t :: s => if t = 0 then none else some (t :: s)
  | r :: rs, t :: s =>
    if t = 0 then
      settle_stack rs (r.state :: (t :: s).drop ((t :: s).length - r.pointer))
    else
      some (t :: s)

/-- The observable outcome of the fatal branch of `error_value`:
`exit(1)` after recording "Syntax error" at the lookahead position and
writing the source lines through the token's line. -/
structure FatalExit where
  code : Int
  message : String
  pos : Loc
  written : List Loc
deriving DecidableEq, Repr

/-- The fatality check opening `error_value` (src/lib/parser.c): a zero
repair value for the current top state records "Syntax error" at
`TKNQUEUE(0).where`, writes lines while the loop condition holds, and
exits with status 1; a nonzero value is returned for the continuation. -/
def error_value_check (repair : Int → Int) (top : Int) (tok : TokEntry)
    (lines : List Loc) : Except FatalExit Int :=
  if repair top = 0 then
    .error { code := 1, message := "Syntax error", pos := tok.twhere,
             written := lines.takeWhile (fun u => locLEb u tok.locus) }
  else
    .ok (repair top)

/-- The settle-then-check prefix of `repair_error`: settle the copied
parse-stack states and run the first `error_value` fatality check on the
settled top. -/
def repair_error_fatal (repair : Int → Int) (states : List Int)
    (queue : List RedEntry) (tok : TokEntry) (lines : List Loc) :
    Option (Except FatalExit Int) :=
  match settle_stack queue states with
  | none => none
  | some [] => none
  | some (top :: _) => some (error_value_check repair top tok lines)

theorem locLT_of_LEb_false {u c x : Loc} (hx : locLEb x c = false) (hlt : locLT x u) :
    locLEb u c = false := by
  unfold locLEb at hx ⊢
  unfold locLT at hlt
  simp only [Bool.or_eq_false_iff, Bool.and_eq_false_iff, decide_eq_false_iff_not,
    not_lt, beq_eq_false_iff_ne, ne_eq] at hx ⊢
  rcases hx with ⟨hx1, hx2⟩
  constructor
  · rcases hlt with h | ⟨h1, h2⟩
    · omega
    · omega
  · rcases hx2 with hx2 | hx2
    · rcases hlt with h | ⟨h1, h2⟩
      · left; omega
      · left; omega
    · rcases hlt with h | ⟨h1, h2⟩
      · left; omega
      · right; omega

theorem takeWhile_mem_iff_of_sorted {c : Loc} :
    ∀ (lines : List Loc), lines.Pairwise locLT →
      ∀ u, u ∈ lines.takeWhile (fun x => locLEb x c) ↔
        u ∈ lines ∧ locLEb u c = true := by
  intro lines
  induction lines with
  | nil => intro _ u; simp
  | cons x xs ih =>
    intro hs u
    rw [List.pairwise_cons] at hs
    by_cases hx : locLEb x c = true
    · rw [List.takeWhile_cons_of_pos (by simpa using hx)]
      simp only [List.mem_cons]
      rw [ih hs.2 u]  -- membership in tail takeWhile
      constructor
      · rintro (h | ⟨h1, h2⟩)
        · exact ⟨Or.inl h, h ▸ hx⟩
        · exact ⟨Or.inr h1, h2⟩
      · rintro ⟨h1 | h1, h2⟩
        · exact Or.inl h1
        · exact Or.inr ⟨h1, h2⟩
    · rw [List.takeWhile_cons_of_neg (by simpa using hx)]
      simp only [List.not_mem_nil, false_iff]
      rintro ⟨h1, h2⟩
      rcases List.mem_cons.mp h1 with h1 | h1
      · rw [h1] at h2
        exact absurd h2 (by simpa using hx)
      · have := locLT_of_LEb_false (Bool.eq_false_iff.mpr hx) (hs.1 u h1)
        rw [h2] at this
        cases this

/-- C7: during error repair, a zero repair value for the settled
top-of-stack state is fatal — "Syntax error" is recorded at the lookahead
token's position, every source line up to and including the token's line
is written, and the process exits with code 1; a nonzero repair value is
returned for repair and no exit occurs at this check. -/
theorem repair_fatality_spec (repair : Int → Int) (states : List Int)
    (queue : List RedEntry) (tok : TokEntry) (lines : List Loc)
    (top : Int) (s' : List Int)
    (hsettle : settle_stack queue states = some (top :: s'))
    (hsorted : lines.Pairwise locLT) :
    (repair top = 0 →
      repair_error_fatal repair states queue tok lines =
        some (.error { code := 1, message := "Syntax error", pos := tok.twhere,
                       written := lines.takeWhile (fun u => locLEb u tok.locus) }) ∧
      ∀ u, u ∈ lines.takeWhile (fun u => locLEb u tok.locus) ↔
        u ∈ lines ∧ locLEb u tok.locus = true) ∧
    (repair top ≠ 0 →
      repair_error_fatal repair states queue tok lines = some (.ok (repair top))) := by
  constructor
  · intro hz
    constructor
    · unfold repair_error_fatal
      rw [hsettle]
      simp only []
      unfold error_value_check
      rw [if_pos hz]
    · exact takeWhile_mem_iff_of_sorted lines hsorted
  · intro hnz
    unfold repair_error_fatal
    rw [hsettle]
    simp only []
    unfold error_value_check
    rw [if_neg hnz]

/-- The repair table for the `repair_fatality_spec` witness: state 2 has
no repair value, state 3 has repair value 9. -/
def repairDemo : Int → Int := fun s => if s = 2 then 0 else 9

/-- Witness for `repair_fatality_spec`: a settled top state 2 with repair
value 0 exits fatally with code 1 and writes the one line at or before the
token, while top state 3 returns its repair value 9. -/
theorem repair_fatality_spec_witness :
    settle_stack [] [2] = some [2] ∧
    repair_error_fatal repairDemo [2] [] ⟨8, none, ⟨0, 9⟩, ⟨0, 9⟩⟩
        [⟨0, 0⟩, ⟨1, 0⟩] =
      some (.error { code := 1, message := "Syntax error", pos := ⟨0, 9⟩,
                     written := [⟨0, 0⟩] }) ∧
    repair_error_fatal repairDemo [3] [] ⟨8, none, ⟨0, 9⟩, ⟨0, 9⟩⟩
        [⟨0, 0⟩, ⟨1, 0⟩] = some (.ok 9) := by
  have h1 := repair_fatality_spec repairDemo [2] [] ⟨8, none, ⟨0, 9⟩, ⟨0, 9⟩⟩
    [⟨0, 0⟩, ⟨1, 0⟩] 2 [] rfl (by decide)
  have h2 := repair_fatality_spec repairDemo [3] [] ⟨8, none, ⟨0, 9⟩, ⟨0, 9⟩⟩
    [⟨0, 0⟩, ⟨1, 0⟩] 3 [] rfl (by decide)
  refine ⟨rfl, ?_, h2.2 (by decide)⟩
  have := (h1.1 (by decide)).1
  rw [this]
  rfl

end Sdtgen

namespace Sdtgen

/-! ## Parser table compression (`compressParser`/`sortParser`,
src/unnamed/part_009)

The tool reads the uncompressed action matrix with states and tokens
re-indexed from 0 (`actions[i][tkn-1]`, states written for 1..pnumber),
sorts a state index by descending action count (`sortParser`), and
first-fits each state's nonzero entries into shared `check`/`next` arrays,
storing `state + 1` as the check value.  The dynarrays are modelled as
total functions with all cells `≥ count` equal to the `memset` value 0.
`tableformat` emits the arrays with a leading 0 (`base == 1`), so the
runtime's `pbase[s]`/`pcheck[k]`/`pnext[k]` are the tool's values shifted
by one index. -/

/-- The compressed `tcheck`/`tnext` dynarrays and their common count. -/
structure CompTbl where
  check : Nat → Int
  next : Nat → Int
  count : Nat

/-- The first-fit test of `compressParser` at displacement `i`: every
nonzero action cell must land on a zero check cell. -/
def fitsAt (act : Nat → Int) (tokens : Nat) (check : Nat → Int) (i : Nat) : Bool :=
  decide (∀ j < tokens, act j = 0 ∨ check (i + j) = 0)

/-- The first-fit search loop of `compressParser`: the smallest
displacement `< count` that fits, else `count` (the loop falls off the
end with `i = DYNCOUNT`). -/
def findBase (act : Nat → Int) (tokens : Nat) (tbl : CompTbl) : Nat :=
  ((List.range tbl.count).find? (fun i => fitsAt act tokens tbl.check i)).getD tbl.count

/-- `compressParser` from src/unnamed/part_009, for one state: find the
insertion point, write `state + 1` into `check` and the action into
`next` at every nonzero column, and extend the count to cover the row.
Returns the state's base displacement and the updated tables. -/
def compressParser (act : Nat → Int) (tokens : Nat) (state : Nat) (tbl : CompTbl) :
    Nat × CompTbl :=
  let i := findBase act tokens tbl
  ( i
  , { check := fun k =>
        if i ≤ k ∧ k < i + tokens ∧ act (k - i) ≠ 0 then (state : Int) + 1 else tbl.check k
    , next := fun k =>
        if i ≤ k ∧ k < i + tokens ∧ act (k - i) ≠ 0 then act (k - i) else tbl.next k
    , count := max tbl.count (i + tokens) } )

/-- One fold step of the packing loop: compress one state and record its
base displacement. -/
def compressStep (act : Nat → Nat → Int) (tokens : Nat)
    (acc : (Nat → Nat) × CompTbl) (s : Nat) : (Nat → Nat) × CompTbl :=
  let r := compressParser (act s) tokens s acc.2
  (Function.update acc.1 s r.1, r.2)

/-- Packing the whole action matrix: fold `compressParser` over the
states in the given insertion order, recording each state's base. -/
def compress_parser_all (act : Nat → Nat → Int) (tokens : Nat) (order : List Nat) :
    (Nat → Nat) × CompTbl :=
  order.foldl (compressStep act tokens) (fun _ => 0, ⟨fun _ => 0, fun _ => 0, 0⟩)

/-- `sortParser` from src/unnamed/part_009: an insertion sort of the
state indices `0..states-1` by descending action count (ties keep the
lower index; only the fact that the result is a permutation of all states
matters for the round-trip). -/
def sortParser (count : Nat → Int) (states : Nat) : List Nat :=
  (List.range states).insertionSort (fun a b => ¬ count a < count b)

/-- The runtime's `pbase` after the one-shift of `tableformat`. -/
def pbaseRT (base : Nat → Nat) (s : Nat) : Nat := base (s - 1)

/-- The runtime's `pcheck` after the one-shift of `tableformat`
(index 0 holds the written leading 0). -/
def pcheckRT (tbl : CompTbl) (k : Nat) : Int :=
  if k = 0 then 0 else tbl.check (k - 1)

/-- The runtime's `pnext` after the one-shift of `tableformat`. -/
def pnextRT (tbl : CompTbl) (k : Nat) : Int :=
  if k = 0 then 0 else tbl.next (k - 1)

/-- The invariant maintained while states are packed: all cells at or past
`count` are zero; every processed state's nonzero actions sit at its base
with check value `state + 1`; and every nonzero check cell is owned by
exactly the processed state and column written there. -/
structure CompInv (act : Nat → Nat → Int) (tokens : Nat) (processed : List Nat)
    (base : Nat → Nat) (tbl : CompTbl) : Prop where
  count_zero : ∀ k, tbl.count ≤ k → tbl.check k = 0
  entries : ∀ s ∈ processed, ∀ t, t < tokens → act s t ≠ 0 →
    tbl.check (base s + t) = (s : Int) + 1 ∧ tbl.next (base s + t) = act s t
  cells : ∀ k, tbl.check k ≠ 0 →
    ∃ s ∈ processed, ∃ t, t < tokens ∧ k = base s + t ∧ act s t ≠ 0 ∧
      tbl.check k = (s : Int) + 1

theorem findBase_fits (act : Nat → Int) (tokens : Nat) (tbl : CompTbl)
    (hzero : ∀ k, tbl.count ≤ k → tbl.check k = 0) :
    fitsAt act tokens tbl.check (findBase act tokens tbl) = true := by
  unfold findBase
  rcases hf : (List.range tbl.count).find? (fun i => fitsAt act tokens tbl.check i)
    with _ | i
  · simp only [Option.getD_none]
    unfold fitsAt
    rw [decide_eq_true_iff]
    intro j _
    exact Or.inr (hzero (tbl.count + j) (Nat.le_add_right _ _))
  · simp only [Option.getD_some]
    exact List.find?_some hf

theorem fitsAt_spec {act : Nat → Int} {tokens : Nat} {check : Nat → Int} {i : Nat}
    (h : fitsAt act tokens check i = true) :
    ∀ j, j < tokens → act j = 0 ∨ check (i + j) = 0 := by
  unfold fitsAt at h
  rw [decide_eq_true_iff] at h
  exact h

theorem compress_parser_inv (act : Nat → Nat → Int) (tokens : Nat)
    (processed : List Nat) (base : Nat → Nat) (tbl : CompTbl) (s : Nat)
    (hinv : CompInv act tokens processed base tbl) (hs : s ∉ processed) :
    CompInv act tokens (s :: processed)
      (Function.update base s (compressParser (act s) tokens s tbl).1)
      (compressParser (act s) tokens s tbl).2 := by
  have hfits := findBase_fits (act s) tokens tbl hinv.count_zero
  set i := findBase (act s) tokens tbl with hi
  have hfit := fitsAt_spec hfits
  refine ⟨?_, ?_, ?_⟩
  · -- count_zero
    intro k hk
    unfold compressParser
    simp only [← hi]
    have hk1 : tbl.count ≤ k := le_trans (le_max_left _ _) hk
    have hk2 : i + tokens ≤ k := le_trans (le_max_right _ _) hk
    rw [if_neg (by omega)]
    exact hinv.count_zero k hk1
  · -- entries
    intro s' hs' t ht hact
    rcases List.mem_cons.mp hs' with hs' | hs'
    · subst hs'
      rw [Function.update_same]
      unfold compressParser
      simp only [← hi]
      have hcond : i ≤ i + t ∧ i + t < i + tokens ∧ act s' (i + t - i) ≠ 0 := by
        refine ⟨Nat.le_add_right _ _, by omega, ?_⟩
        have : i + t - i = t := by omega
        rw [this]
        exact hact
      constructor
      · rw [if_pos hcond]
      · have : i + t - i = t := by omega
        rw [if_pos hcond, this]
    · have hne : s' ≠ s := fun he => hs (he ▸ hs')
      rw [Function.update_noteq hne]
      obtain ⟨hc, hn⟩ := hinv.entries s' hs' t ht hact
      have hnw : ¬ (i ≤ base s' + t ∧ base s' + t < i + tokens ∧
          act s (base s' + t - i) ≠ 0) := by
        rintro ⟨h1, h2, h3⟩
        rcases hfit (base s' + t - i) (by omega) with h4 | h4
        · exact h3 h4
        · have : i + (base s' + t - i) = base s' + t := by omega
          rw [this] at h4
          rw [h4] at hc
          have : ((s' : Int) + 1) ≠ 0 := by positivity
          exact this hc.symm
      unfold compressParser
      simp only [← hi]
      rw [if_neg hnw, if_neg hnw]
      exact ⟨hc, hn⟩
  · -- cells
    intro k hk
    unfold compressParser at hk ⊢
    simp only [← hi] at hk ⊢
    by_cases hw : i ≤ k ∧ k < i + tokens ∧ act s (k - i) ≠ 0
    · refine ⟨s, List.mem_cons_self _ _, k - i, by omega, ?_, hw.2.2, ?_⟩
      · rw [Function.update_same]; omega
      · rw [if_pos hw]
    · rw [if_neg hw] at hk
      obtain ⟨s', hs', t, ht, hkeq, hact, hval⟩ := hinv.cells k hk
      have hne : s' ≠ s := fun he => hs (he ▸ hs')
      refine ⟨s', List.mem_cons_of_mem _ hs', t, ht, ?_, hact, ?_⟩
      · rw [Function.update_noteq hne]; exact hkeq
      · rw [if_neg hw]; exact hval

end Sdtgen

namespace Sdtgen

theorem compress_fold_inv (act : Nat → Nat → Int) (tokens : Nat) :
    ∀ (order : List Nat) (processed : List Nat) (base : Nat → Nat) (tbl : CompTbl),
      CompInv act tokens processed base tbl →
      (∀ x ∈ order, x ∉ processed) →
      order.Nodup →
      CompInv act tokens (order.reverse ++ processed)
        (order.foldl (compressStep act tokens) (base, tbl)).1
        (order.foldl (compressStep act tokens) (base, tbl)).2 := by
  intro order
  induction order with
  | nil =>
    intro processed base tbl hinv _ _
    simpa using hinv
  | cons s rest ih =>
    intro processed base tbl hinv hfresh hnd
    rw [List.nodup_cons] at hnd
    have hstep := compress_parser_inv act tokens processed base tbl s hinv
      (hfresh s (List.mem_cons_self _ _))
    have hfresh' : ∀ x ∈ rest, x ∉ s :: processed := by
      intro x hx
      rw [List.mem_cons, not_or]
      exact ⟨fun he => hnd.1 (he ▸ hx), hfresh x (List.mem_cons_of_mem _ hx)⟩
    have := ih (s :: processed)
      (Function.update base s (compressParser (act s) tokens s tbl).1)
      (compressParser (act s) tokens s tbl).2 hstep hfresh' hnd.2
    rw [List.foldl_cons]
    have harr : rest.reverse ++ s :: processed = (s :: rest).reverse ++ processed := by
      simp
    rw [harr] at this
    exact this

/-- The consequences of the invariant once every state has been packed:
round-trip correctness cell by cell. -/
theorem CompInv_roundtrip (act : Nat → Nat → Int) (tokens : Nat)
    (processed : List Nat) (base : Nat → Nat) (tbl : CompTbl)
    (hinv : CompInv act tokens processed base tbl) :
    ∀ s ∈ processed, ∀ t, t < tokens →
      (act s t ≠ 0 →
        tbl.check (base s + t) = (s : Int) + 1 ∧ tbl.next (base s + t) = act s t) ∧
      (act s t = 0 → tbl.check (base s + t) ≠ (s : Int) + 1) := by
  intro s hs t ht
  constructor
  · exact hinv.entries s hs t ht
  · intro hz hcheck
    have hne : tbl.check (base s + t) ≠ 0 := by
      rw [hcheck]
      positivity
    obtain ⟨s', _, t', ht', hkeq, hact', hval⟩ := hinv.cells (base s + t) hne
    rw [hcheck] at hval
    have hs' : s' = s := by
      have : (s' : Int) = (s : Int) := by omega
      exact_mod_cast this
    subst hs'
    have ht'' : t' = t := by omega
    subst ht''
    exact hact' hz

/-- C1: packing every state of the uncompressed action matrix with
`compressParser` (in the `sortParser` insertion order) yields compressed
tables that, viewed through the runtime's one-shifted
`pbase`/`pcheck`/`pnext`, satisfy `pcheck[pbase[s]+t] == s` with
`pnext[pbase[s]+t]` the original action for every nonzero
`actions[s][t]`, satisfy `pcheck[pbase[s]+t] ≠ s` for every zero cell,
and therefore decompress to the original matrix at every `(state, token)`
pair (states and tokens 1-based as at runtime; the matrix argument is the
tool's 0-based `actions` array). -/
theorem compress_parser_roundtrip (act : Nat → Nat → Int) (tokens pnumber : Nat)
    (cnt : Nat → Int) (s t : Nat)
    (hs1 : 1 ≤ s) (hs2 : s ≤ pnumber) (ht1 : 1 ≤ t) (ht2 : t ≤ tokens) :
    (act (s - 1) (t - 1) ≠ 0 →
      pcheckRT (compress_parser_all act tokens (sortParser cnt pnumber)).2
          (pbaseRT (compress_parser_all act tokens (sortParser cnt pnumber)).1 s + t) =
        (s : Int) ∧
      pnextRT (compress_parser_all act tokens (sortParser cnt pnumber)).2
          (pbaseRT (compress_parser_all act tokens (sortParser cnt pnumber)).1 s + t) =
        act (s - 1) (t - 1)) ∧
    (act (s - 1) (t - 1) = 0 →
      pcheckRT (compress_parser_all act tokens (sortParser cnt pnumber)).2
          (pbaseRT (compress_parser_all act tokens (sortParser cnt pnumber)).1 s + t) ≠
        (s : Int)) ∧
    ((if pcheckRT (compress_parser_all act tokens (sortParser cnt pnumber)).2
          (pbaseRT (compress_parser_all act tokens (sortParser cnt pnumber)).1 s + t) =
        (s : Int) then
        pnextRT (compress_parser_all act tokens (sortParser cnt pnumber)).2
          (pbaseRT (compress_parser_all act tokens (sortParser cnt pnumber)).1 s + t)
      else 0) = act (s - 1) (t - 1)) := by
  have hperm : List.Perm (sortParser cnt pnumber) (List.range pnumber) :=
    List.perm_insertionSort _ _
  have hnd : (sortParser cnt pnumber).Nodup :=
    (List.Perm.nodup_iff hperm).mpr (List.nodup_range pnumber)
  have hmem : s - 1 ∈ sortParser cnt pnumber :=
    (List.Perm.mem_iff hperm).mpr (List.mem_range.mpr (by omega))
  have hinit : CompInv act tokens [] (fun _ => 0) ⟨fun _ => 0, fun _ => 0, 0⟩ :=
    ⟨fun _ _ => rfl, fun _ h => absurd h (List.not_mem_nil _), fun _ h => absurd rfl h⟩
  have hinv := compress_fold_inv act tokens (sortParser cnt pnumber) [] (fun _ => 0)
    ⟨fun _ => 0, fun _ => 0, 0⟩ hinit (fun x _ => List.not_mem_nil x) hnd
  rw [List.append_nil] at hinv
  have hmem' : s - 1 ∈ (sortParser cnt pnumber).reverse := List.mem_reverse.mpr hmem
  have hrt := CompInv_roundtrip act tokens _ _ _ hinv (s - 1) hmem' (t - 1) (by omega)
  have hidx : pbaseRT (compress_parser_all act tokens (sortParser cnt pnumber)).1 s + t =
      (compress_parser_all act tokens (sortParser cnt pnumber)).1 (s - 1) + (t - 1) + 1 := by
    unfold pbaseRT
    omega
  have hcast : ((s - 1 : Nat) : Int) + 1 = (s : Int) := by
    omega
  have hch : pcheckRT (compress_parser_all act tokens (sortParser cnt pnumber)).2
      (pbaseRT (compress_parser_all act tokens (sortParser cnt pnumber)).1 s + t) =
      (compress_parser_all act tokens (sortParser cnt pnumber)).2.check
        ((compress_parser_all act tokens (sortParser cnt pnumber)).1 (s - 1) + (t - 1)) := by
    rw [hidx]
    unfold pcheckRT
    rw [if_neg (by omega)]
    congr 1
  have hnx : pnextRT (compress_parser_all act tokens (sortParser cnt pnumber)).2
      (pbaseRT (compress_parser_all act tokens (sortParser cnt pnumber)).1 s + t) =
      (compress_parser_all act tokens (sortParser cnt pnumber)).2.next
        ((compress_parser_all act tokens (sortParser cnt pnumber)).1 (s - 1) + (t - 1)) := by
    rw [hidx]
    unfold pnextRT
    rw [if_neg (by omega)]
    congr 1
  unfold compress_parser_all at hch hnx ⊢
  refine ⟨?_, ?_, ?_⟩
  · intro hact
    obtain ⟨h1, h2⟩ := hrt.1 hact
    rw [hch, hnx, h1, h2, hcast]
    exact ⟨rfl, rfl⟩
  · intro hz
    rw [hch]
    intro habs
    exact (hrt.2 hz) (by rw [habs, ← hcast])
  · by_cases hact : act (s - 1) (t - 1) = 0
    · rw [if_neg]
      · exact hact.symm
      · rw [hch]
        intro habs
        exact (hrt.2 hact) (by rw [habs, ← hcast])
    · obtain ⟨h1, h2⟩ := hrt.1 hact
      rw [if_pos]
      · rw [hnx, h2]
      · rw [hch, h1, hcast]

end Sdtgen

namespace Sdtgen

/-- A 2-state, 2-token action matrix for the round-trip witness: state 0
acts only on token 1 (action 5), state 1 only on token 0 (action 3). -/
def actDemo : Nat → Nat → Int := fun st tk =>
  if st = 0 ∧ tk = 1 then 5 else if st = 1 ∧ tk = 0 then 3 else 0

/-- The per-state action counts handed to `sortParser` in the witness. -/
def cntDemo : Nat → Int := fun _ => 1

/-- Witness for `compress_parser_roundtrip`: at runtime state 1, token 2
the nonzero action 5 round-trips (`pcheck` matches, `pnext` holds 5), and
at state 2, token 2 the zero cell fails the `pcheck` test. -/
theorem compress_parser_roundtrip_witness :
    actDemo 0 1 = 5 ∧
    pcheckRT (compress_parser_all actDemo 2 (sortParser cntDemo 2)).2
      (pbaseRT (compress_parser_all actDemo 2 (sortParser cntDemo 2)).1 1 + 2) = 1 ∧
    pnextRT (compress_parser_all actDemo 2 (sortParser cntDemo 2)).2
      (pbaseRT (compress_parser_all actDemo 2 (sortParser cntDemo 2)).1 1 + 2) = 5 ∧
    actDemo 1 1 = 0 ∧
    pcheckRT (compress_parser_all actDemo 2 (sortParser cntDemo 2)).2
      (pbaseRT (compress_parser_all actDemo 2 (sortParser cntDemo 2)).1 2 + 2) ≠ 2 := by
  have h1 := compress_parser_roundtrip actDemo 2 2 cntDemo 1 2
    (by decide) (by decide) (by decide) (by decide)
  have h2 := compress_parser_roundtrip actDemo 2 2 cntDemo 2 2
    (by decide) (by decide) (by decide) (by decide)
  have ha : actDemo 0 1 ≠ 0 := by decide
  obtain ⟨hc, hn⟩ := h1.1 (by exact ha)
  refine ⟨by decide, ?_, ?_, by decide, ?_⟩
  · simpa using hc
  · simpa using hn
  · have := h2.2.1 (by decide)
    simpa using this

end Sdtgen

namespace Sdtgen

/-! ## Sort keys for error repair (`compute_sortkeys`/`sort_productions`,
src/src/symbols.c)

`build_productions` initialises every production's `steps` and `insert` to
`INT_MAX`; `compute_sortkeys` then iterates a pass over all productions
until nothing changes.  One pass recomputes, for production `i`, the
saturating sums over its effective RHS (`RHSIDE(i, 0..length-1)`): `steps`
adds the minimum `steps` over each RHS nonterminal's productions, `insert`
adds the minimum `insert` values plus the insert costs of non-ε terminals;
a production's stored values are lowered when the recomputed value is
strictly smaller (`steps + 1` for the derivation step).  Values are
modelled as `Nat` (the C `int`s here are nonnegative); the per-production
state is a total function `Nat → Nat × Nat` of `(steps, insert)` pairs. -/

def INT_MAX : Nat := 2147483647

/-- An effective-RHS symbol as `compute_sortkeys` reads it: a nonterminal
(by LHS token), or a terminal with its insert cost and `EMPTY` flag. -/
inductive PSym where
  | nt (tok : Nat)
  | t (cost : Nat) (empty : Bool)
deriving DecidableEq, Repr

/-- The fixed shape of a production: LHS token and effective RHS. -/
structure PShape where
  lhs : Nat
  scan : List PSym

/-- `minsteps` in `compute_sortkeys`: the minimum `steps` over the
productions whose LHS is `N`, starting from `INT_MAX`. -/
def minStepsOf (g : Nat → PShape) (n : Nat) (v : Nat → Nat × Nat) (N : Nat) : Nat :=
  (List.range n).foldl (fun m k => if (g k).lhs = N then min m (v k).1 else m) INT_MAX

/-- `mininsert` in `compute_sortkeys`. -/
def minInsOf (g : Nat → PShape) (n : Nat) (v : Nat → Nat × Nat) (N : Nat) : Nat :=
  (List.range n).foldl (fun m k => if (g k).lhs = N then min m (v k).2 else m) INT_MAX

/-- The `steps` accumulation over one production's RHS: each nonterminal
adds its minimum `steps` under the saturation guard
(`if (steps < INT_MAX && minsteps < INT_MAX) steps += minsteps; else steps = INT_MAX`);
terminals contribute nothing. -/
def foldSteps (g : Nat → PShape) (n : Nat) (v : Nat → Nat × Nat) :
    List PSym → Nat → Nat
  | [], acc => acc
  | .nt N :: rest, acc =>
    foldSteps g n v rest
      (if acc < INT_MAX ∧ minStepsOf g n v N < INT_MAX then
        acc + minStepsOf g n v N
      else
        INT_MAX)
  | .t _ _ :: rest, acc => foldSteps g n v rest acc

/-- The `insert` accumulation over one production's RHS: nonterminals add
their minimum `insert` under the saturation guard, non-ε terminals add
their insert cost while the accumulator is below `INT_MAX`. -/
def foldIns (g : Nat → PShape) (n : Nat) (v : Nat → Nat × Nat) :
    List PSym → Nat → Nat
  | [], acc => acc
  | .nt N :: rest, acc =>
    foldIns g n v rest
      (if acc < INT_MAX ∧ minInsOf g n v N < INT_MAX then
        acc + minInsOf g n v N
      else
        INT_MAX)
  | .t c empty :: rest, acc =>
    foldIns g n v rest (if empty = false ∧ acc < INT_MAX then acc + c else acc)

/-- The body of `compute_sortkeys`' loop for one production: recompute the
sums over its RHS and lower the stored `(steps, insert)` under the strict
guards. -/
def updateProd (g : Nat → PShape) (n : Nat) (v : Nat → Nat × Nat) (idx : Nat) :
    Nat → Nat × Nat :=
  Function.update v idx
    ( (if foldSteps g n v (g idx).scan 0 < INT_MAX ∧
          foldSteps g n v (g idx).scan 0 + 1 < (v idx).1 then
        foldSteps g n v (g idx).scan 0 + 1
      else
        (v idx).1)
    , (if foldIns g n v (g idx).scan 0 < (v idx).2 then
        foldIns g n v (g idx).scan 0
      else
        (v idx).2) )

/-- One full pass of `compute_sortkeys` over all productions. -/
def sortkey_pass (g : Nat → PShape) (n : Nat) (v : Nat → Nat × Nat) :
    Nat → Nat × Nat :=
  (List.range n).foldl (updateProd g n) v

/-- The decreasing measure for the `do … while (changed)` loop. -/
def sumV (n : Nat) (v : Nat → Nat × Nat) : Nat :=
  ∑ i ∈ Finset.range n, ((v i).1 + (v i).2)

theorem updateProd_le (g : Nat → PShape) (n : Nat) (v : Nat → Nat × Nat) (idx : Nat) :
    ∀ i, (updateProd g n v idx i).1 ≤ (v i).1 ∧ (updateProd g n v idx i).2 ≤ (v i).2 := by
  intro i
  unfold updateProd
  by_cases hi : i = idx
  · subst hi
    rw [Function.update_same]
    constructor
    · by_cases h : foldSteps g n v (g i).scan 0 < INT_MAX ∧
          foldSteps g n v (g i).scan 0 + 1 < (v i).1
      · rw [if_pos h]; exact h.2.le
      · rw [if_neg h]
    · by_cases h : foldIns g n v (g i).scan 0 < (v i).2
      · rw [if_pos h]; exact h.le
      · rw [if_neg h]
  · rw [Function.update_noteq hi]
    exact ⟨le_rfl, le_rfl⟩

theorem updateProd_off (g : Nat → PShape) (n : Nat) (v : Nat → Nat × Nat)
    (idx j : Nat) (hj : j ≠ idx) :
    updateProd g n v idx j = v j := by
  unfold updateProd
  rw [Function.update_noteq hj]

theorem foldl_updateProd_le (g : Nat → PShape) (n : Nat) :
    ∀ (l : List Nat) (v : Nat → Nat × Nat) (i : Nat),
      ((l.foldl (updateProd g n) v) i).1 ≤ (v i).1 ∧
      ((l.foldl (updateProd g n) v) i).2 ≤ (v i).2 := by
  intro l
  induction l with
  | nil => exact fun v i => ⟨le_rfl, le_rfl⟩
  | cons x xs ih =>
    intro v i
    rw [List.foldl_cons]
    constructor
    · exact (ih _ i).1.trans (updateProd_le g n v x i).1
    · exact (ih _ i).2.trans (updateProd_le g n v x i).2

theorem sortkey_pass_le (g : Nat → PShape) (n : Nat) (v : Nat → Nat × Nat) (i : Nat) :
    ((sortkey_pass g n v) i).1 ≤ (v i).1 ∧ ((sortkey_pass g n v) i).2 ≤ (v i).2 :=
  foldl_updateProd_le g n (List.range n) v i

theorem foldl_updateProd_off (g : Nat → PShape) (n : Nat) :
    ∀ (l : List Nat) (v : Nat → Nat × Nat) (j : Nat), j ∉ l →
      (l.foldl (updateProd g n) v) j = v j := by
  intro l
  induction l with
  | nil => exact fun v j _ => rfl
  | cons x xs ih =>
    intro v j hj
    rw [List.foldl_cons, ih _ j (fun h => hj (List.mem_cons_of_mem _ h)),
      updateProd_off g n v x j (fun h => hj (h ▸ List.mem_cons_self _ _))]

theorem sortkey_pass_off (g : Nat → PShape) (n : Nat) (v : Nat → Nat × Nat)
    (j : Nat) (hj : n ≤ j) :
    (sortkey_pass g n v) j = v j :=
  foldl_updateProd_off g n (List.range n) v j (by
    rw [List.mem_range]; omega)

theorem sortkey_pass_decreases (g : Nat → PShape) (n : Nat) (v : Nat → Nat × Nat)
    (hne : ¬ ∀ i < n, sortkey_pass g n v i = v i) :
    sumV n (sortkey_pass g n v) < sumV n v := by
  push_neg at hne
  obtain ⟨i, hi, hne⟩ := hne
  unfold sumV
  refine Finset.sum_lt_sum (fun j _ => ?_) ⟨i, Finset.mem_range.mpr hi, ?_⟩
  · have h := sortkey_pass_le g n v j
    omega
  · have h := sortkey_pass_le g n v i
    have hd : (sortkey_pass g n v i).1 ≠ (v i).1 ∨ (sortkey_pass g n v i).2 ≠ (v i).2 := by
      by_contra hc
      push_neg at hc
      exact hne (Prod.ext hc.1 hc.2)
    omega

/-- The `do … while (changed)` loop of `compute_sortkeys`: repeat the pass
until no production changes. -/
def sortkey_loop (g : Nat → PShape) (n : Nat) (v : Nat → Nat × Nat) :
    Nat → Nat × Nat :=
  if h : ∀ i < n, sortkey_pass g n v i = v i then
    v
  else
    sortkey_loop g n (sortkey_pass g n v)
termination_by sumV n v
decreasing_by exact sortkey_pass_decreases g n v h

/-- `compute_sortkeys` from src/src/symbols.c: iterate from the
all-`INT_MAX` initial values set by `build_productions`. -/
def compute_sortkeys (g : Nat → PShape) (n : Nat) : Nat → Nat × Nat :=
  sortkey_loop g n (fun _ => (INT_MAX, INT_MAX))

end Sdtgen

namespace Sdtgen

/-- Pointwise comparison of sort-key states. -/
def VecLE (v' v : Nat → Nat × Nat) : Prop :=
  ∀ i, (v' i).1 ≤ (v i).1 ∧ (v' i).2 ≤ (v i).2

/-- The recomputed `steps` value for one production (`+1` under the
saturation guard). -/
def stepsTarget (g : Nat → PShape) (n : Nat) (v : Nat → Nat × Nat) (idx : Nat) : Nat :=
  if foldSteps g n v (g idx).scan 0 < INT_MAX then
    foldSteps g n v (g idx).scan 0 + 1
  else
    INT_MAX

/-- The recomputed `insert` value for one production, clamped at
`INT_MAX` (values at or above `INT_MAX` never pass the strict update
guard against a stored value `≤ INT_MAX`). -/
def insTarget (g : Nat → PShape) (n : Nat) (v : Nat → Nat × Nat) (idx : Nat) : Nat :=
  min (foldIns g n v (g idx).scan 0) INT_MAX

theorem minStepsOf_mono {g : Nat → PShape} {n : Nat} {v' v : Nat → Nat × Nat}
    (hle : VecLE v' v) (N : Nat) :
    minStepsOf g n v' N ≤ minStepsOf g n v N := by
  unfold minStepsOf
  have : ∀ (l : List Nat) (m' m : Nat), m' ≤ m →
      l.foldl (fun m k => if (g k).lhs = N then min m (v' k).1 else m) m' ≤
      l.foldl (fun m k => if (g k).lhs = N then min m (v k).1 else m) m := by
    intro l
    induction l with
    | nil => exact fun m' m h => h
    | cons x xs ih =>
      intro m' m h
      rw [List.foldl_cons, List.foldl_cons]
      by_cases hx : (g x).lhs = N
      · rw [if_pos hx, if_pos hx]
        exact ih _ _ (min_le_min h (hle x).1)
      · rw [if_neg hx, if_neg hx]
        exact ih _ _ h
  exact this _ _ _ le_rfl

theorem minInsOf_mono {g : Nat → PShape} {n : Nat} {v' v : Nat → Nat × Nat}
    (hle : VecLE v' v) (N : Nat) :
    minInsOf g n v' N ≤ minInsOf g n v N := by
  unfold minInsOf
  have : ∀ (l : List Nat) (m' m : Nat), m' ≤ m →
      l.foldl (fun m k => if (g k).lhs = N then min m (v' k).2 else m) m' ≤
      l.foldl (fun m k => if (g k).lhs = N then min m (v k).2 else m) m := by
    intro l
    induction l with
    | nil => exact fun m' m h => h
    | cons x xs ih =>
      intro m' m h
      rw [List.foldl_cons, List.foldl_cons]
      by_cases hx : (g x).lhs = N
      · rw [if_pos hx, if_pos hx]
        exact ih _ _ (min_le_min h (hle x).2)
      · rw [if_neg hx, if_neg hx]
        exact ih _ _ h
  exact this _ _ _ le_rfl

theorem foldSteps_absorb (g : Nat → PShape) (n : Nat) (v : Nat → Nat × Nat) :
    ∀ (scan : List PSym) (acc : Nat), INT_MAX ≤ acc →
      INT_MAX ≤ foldSteps g n v scan acc := by
  intro scan
  induction scan with
  | nil => exact fun acc h => h
  | cons sym rest ih =>
    intro acc h
    match sym with
    | .nt N =>
      rw [foldSteps]
      rw [if_neg (by omega)]
      exact ih INT_MAX le_rfl
    | .t c e =>
      rw [foldSteps]
      exact ih acc h

theorem foldIns_absorb (g : Nat → PShape) (n : Nat) (v : Nat → Nat × Nat) :
    ∀ (scan : List PSym) (acc : Nat), INT_MAX ≤ acc →
      INT_MAX ≤ foldIns g n v scan acc := by
  intro scan
  induction scan with
  | nil => exact fun acc h => h
  | cons sym rest ih =>
    intro acc h
    match sym with
    | .nt N =>
      rw [foldIns]
      rw [if_neg (by omega)]
      exact ih INT_MAX le_rfl
    | .t c e =>
      rw [foldIns]
      by_cases he : e = false ∧ acc < INT_MAX
      · omega
      · rw [if_neg he]
        exact ih acc h

theorem foldSteps_mono (g : Nat → PShape) (n : Nat) {v' v : Nat → Nat × Nat}
    (hle : VecLE v' v) :
    ∀ (scan : List PSym) (acc' acc : Nat), acc' ≤ acc →
      foldSteps g n v scan acc < INT_MAX →
      foldSteps g n v' scan acc' ≤ foldSteps g n v scan acc := by
  intro scan
  induction scan with
  | nil => exact fun acc' acc h _ => h
  | cons sym rest ih =>
    intro acc' acc h hlt
    match sym with
    | .nt N =>
      rw [foldSteps] at hlt ⊢
      rw [foldSteps]
      by_cases hg : acc < INT_MAX ∧ minStepsOf g n v N < INT_MAX
      · rw [if_pos hg] at hlt
        obtain ⟨hg1, hg2⟩ := hg
        have hm := minStepsOf_mono (g := g) (n := n) hle N
        by_cases ha : acc + minStepsOf g n v N < INT_MAX
        · have hg' : acc' < INT_MAX ∧ minStepsOf g n v' N < INT_MAX := by omega
          rw [if_pos hg', if_pos ⟨hg1, hg2⟩]
          exact ih _ _ (Nat.add_le_add h hm) hlt
        · exact absurd (foldSteps_absorb g n v rest (acc + minStepsOf g n v N) (by omega)) (by omega)
      · rw [if_neg hg] at hlt
        exact absurd (foldSteps_absorb g n v rest INT_MAX le_rfl) (by omega)
    | .t c e =>
      rw [foldSteps] at hlt ⊢
      rw [foldSteps]
      exact ih _ _ h hlt

theorem foldIns_mono (g : Nat → PShape) (n : Nat) {v' v : Nat → Nat × Nat}
    (hle : VecLE v' v) :
    ∀ (scan : List PSym) (acc' acc : Nat), acc' ≤ acc →
      foldIns g n v scan acc < INT_MAX →
      foldIns g n v' scan acc' ≤ foldIns g n v scan acc := by
  intro scan
  induction scan with
  | nil => exact fun acc' acc h _ => h
  | cons sym rest ih =>
    intro acc' acc h hlt
    match sym with
    | .nt N =>
      rw [foldIns] at hlt ⊢
      rw [foldIns]
      by_cases hg : acc < INT_MAX ∧ minInsOf g n v N < INT_MAX
      · rw [if_pos hg] at hlt
        obtain ⟨hg1, hg2⟩ := hg
        have hm := minInsOf_mono (g := g) (n := n) hle N
        by_cases ha : acc + minInsOf g n v N < INT_MAX
        · have hg' : acc' < INT_MAX ∧ minInsOf g n v' N < INT_MAX := by omega
          rw [if_pos hg', if_pos ⟨hg1, hg2⟩]
          exact ih _ _ (Nat.add_le_add h hm) hlt
        · exact absurd (foldIns_absorb g n v rest (acc + minInsOf g n v N) (by omega)) (by omega)
      · rw [if_neg hg] at hlt
        exact absurd (foldIns_absorb g n v rest INT_MAX le_rfl) (by omega)
    | .t c e =>
      rw [foldIns] at hlt ⊢
      rw [foldIns]
      by_cases hge : e = false ∧ acc < INT_MAX
      · rw [if_pos hge] at hlt ⊢
        rcases Nat.lt_or_ge (acc + c) INT_MAX with hacc | hacc
        · rw [if_pos ⟨hge.1, by omega⟩]
          exact ih _ _ (by omega) hlt
        · exact absurd (foldIns_absorb g n v rest (acc + c) (by omega)) (by omega)
      · rw [if_neg hge] at hlt ⊢
        by_cases hge' : e = false ∧ acc' < INT_MAX
        · rw [if_pos hge']
          have hma : INT_MAX ≤ acc := by
            rcases hge' with ⟨hef, _⟩
            by_contra hc
            exact hge ⟨hef, by omega⟩
          exact absurd (foldIns_absorb g n v rest acc hma) (by omega)
        · rw [if_neg hge']
          exact ih _ _ h hlt

theorem stepsTarget_le_MAX (g : Nat → PShape) (n : Nat) (v : Nat → Nat × Nat)
    (idx : Nat) : stepsTarget g n v idx ≤ INT_MAX := by
  unfold stepsTarget
  by_cases h : foldSteps g n v (g idx).scan 0 < INT_MAX
  · rw [if_pos h]; omega
  · rw [if_neg h]

theorem insTarget_le_MAX (g : Nat → PShape) (n : Nat) (v : Nat → Nat × Nat)
    (idx : Nat) : insTarget g n v idx ≤ INT_MAX := by
  unfold insTarget
  exact min_le_right _ _

theorem stepsTarget_mono (g : Nat → PShape) (n : Nat) {v' v : Nat → Nat × Nat}
    (hle : VecLE v' v) (idx : Nat) :
    stepsTarget g n v' idx ≤ stepsTarget g n v idx := by
  unfold stepsTarget
  by_cases h : foldSteps g n v (g idx).scan 0 < INT_MAX
  · rw [if_pos h]
    have hm := foldSteps_mono g n hle (g idx).scan 0 0 le_rfl h
    by_cases h' : foldSteps g n v' (g idx).scan 0 < INT_MAX
    · rw [if_pos h']; omega
    · rw [if_neg h']; omega
  · rw [if_neg h]
    by_cases h' : foldSteps g n v' (g idx).scan 0 < INT_MAX
    · rw [if_pos h']; omega
    · rw [if_neg h']

theorem insTarget_mono (g : Nat → PShape) (n : Nat) {v' v : Nat → Nat × Nat}
    (hle : VecLE v' v) (idx : Nat) :
    insTarget g n v' idx ≤ insTarget g n v idx := by
  unfold insTarget
  by_cases h : foldIns g n v (g idx).scan 0 < INT_MAX
  · have hm := foldIns_mono g n hle (g idx).scan 0 0 le_rfl h
    omega
  · have : min (foldIns g n v (g idx).scan 0) INT_MAX = INT_MAX := by omega
    rw [this]
    exact min_le_right _ _

end Sdtgen

namespace Sdtgen

/-- All stored sort keys stay at or below `INT_MAX`. -/
def InvA (v : Nat → Nat × Nat) : Prop :=
  ∀ i, (v i).1 ≤ INT_MAX ∧ (v i).2 ≤ INT_MAX

/-- Stored keys never drop below the recomputed targets (values only ever
decrease towards the fixpoint from above). -/
def InvB (g : Nat → PShape) (n : Nat) (v : Nat → Nat × Nat) : Prop :=
  ∀ i, stepsTarget g n v i ≤ (v i).1 ∧ insTarget g n v i ≤ (v i).2

theorem updateProd_invA {g : Nat → PShape} {n : Nat} {v : Nat → Nat × Nat}
    (hA : InvA v) (idx : Nat) : InvA (updateProd g n v idx) := by
  intro i
  unfold updateProd
  by_cases hi : i = idx
  · subst hi
    rw [Function.update_same]
    constructor
    · by_cases h : foldSteps g n v (g i).scan 0 < INT_MAX ∧
          foldSteps g n v (g i).scan 0 + 1 < (v i).1
      · rw [if_pos h]
        omega
      · rw [if_neg h]
        exact (hA i).1
    · by_cases h : foldIns g n v (g i).scan 0 < (v i).2
      · rw [if_pos h]
        have := (hA i).2
        omega
      · rw [if_neg h]
        exact (hA i).2
  · rw [Function.update_noteq hi]
    exact hA i

theorem updateProd_invB {g : Nat → PShape} {n : Nat} {v : Nat → Nat × Nat}
    (hB : InvB g n v) (idx : Nat) : InvB g n (updateProd g n v idx) := by
  have hle : VecLE (updateProd g n v idx) v := updateProd_le g n v idx
  intro i
  by_cases hi : i = idx
  · subst hi
    constructor
    · refine (stepsTarget_mono g n hle i).trans ?_
      unfold updateProd
      rw [Function.update_same]
      by_cases h : foldSteps g n v (g i).scan 0 < INT_MAX ∧
          foldSteps g n v (g i).scan 0 + 1 < (v i).1
      · rw [if_pos h]
        unfold stepsTarget
        rw [if_pos h.1]
      · rw [if_neg h]
        exact (hB i).1
    · refine (insTarget_mono g n hle i).trans ?_
      unfold updateProd
      rw [Function.update_same]
      by_cases h : foldIns g n v (g i).scan 0 < (v i).2
      · rw [if_pos h]
        exact min_le_left _ _
      · rw [if_neg h]
        exact (hB i).2
  · constructor
    · refine (stepsTarget_mono g n hle i).trans ?_
      rw [updateProd_off g n v idx i hi]
      exact (hB i).1
    · refine (insTarget_mono g n hle i).trans ?_
      rw [updateProd_off g n v idx i hi]
      exact (hB i).2

theorem sortkey_pass_invA {g : Nat → PShape} {n : Nat} {v : Nat → Nat × Nat}
    (hA : InvA v) : InvA (sortkey_pass g n v) := by
  unfold sortkey_pass
  generalize List.range n = l
  induction l generalizing v with
  | nil => exact hA
  | cons x xs ih => exact ih (updateProd_invA hA x)

theorem sortkey_pass_invB {g : Nat → PShape} {n : Nat} {v : Nat → Nat × Nat}
    (hB : InvB g n v) : InvB g n (sortkey_pass g n v) := by
  unfold sortkey_pass
  generalize List.range n = l
  induction l generalizing v with
  | nil => exact hB
  | cons x xs ih => exact ih (updateProd_invB hB x)

theorem sortkey_loop_spec (g : Nat → PShape) (n : Nat) :
    ∀ (m : Nat) (v : Nat → Nat × Nat), sumV n v ≤ m → InvA v → InvB g n v →
      InvA (sortkey_loop g n v) ∧ InvB g n (sortkey_loop g n v) ∧
      (∀ i < n, sortkey_pass g n (sortkey_loop g n v) i = sortkey_loop g n v i) := by
  intro m
  induction m with
  | zero =>
    intro v hm hA hB
    rw [sortkey_loop]
    by_cases h : ∀ i < n, sortkey_pass g n v i = v i
    · rw [dif_pos h]
      exact ⟨hA, hB, h⟩
    · exact absurd (sortkey_pass_decreases g n v h) (by omega)
  | succ m ih =>
    intro v hm hA hB
    rw [sortkey_loop]
    by_cases h : ∀ i < n, sortkey_pass g n v i = v i
    · rw [dif_pos h]
      exact ⟨hA, hB, h⟩
    · rw [dif_neg h]
      have hd := sortkey_pass_decreases g n v h
      exact ih (sortkey_pass g n v) (by omega) (sortkey_pass_invA hA)
        (sortkey_pass_invB hB)

theorem foldl_updateProd_fix (g : Nat → PShape) (n : Nat) :
    ∀ (l : List Nat) (v : Nat → Nat × Nat), l.Nodup →
      l.foldl (updateProd g n) v = v →
      ∀ idx ∈ l, updateProd g n v idx = v := by
  intro l
  induction l with
  | nil => intro v _ _ idx h; cases h
  | cons x xs ih =>
    intro v hnd hfold idx hidx
    rw [List.nodup_cons] at hnd
    rw [List.foldl_cons] at hfold
    have hoff : (xs.foldl (updateProd g n) (updateProd g n v x)) x =
        (updateProd g n v x) x :=
      foldl_updateProd_off g n xs _ x hnd.1
    have hxv : updateProd g n v x = v := by
      funext j
      by_cases hj : j = x
      · subst hj
        rw [← hoff, hfold]
      · exact updateProd_off g n v x j hj
    rcases List.mem_cons.mp hidx with hidx | hidx
    · subst hidx; exact hxv
    · refine ih v hnd.2 ?_ idx hidx
      conv_lhs => rw [← hxv]
      exact hfold

theorem sortkey_fix_equations (g : Nat → PShape) (n : Nat) (v : Nat → Nat × Nat)
    (hA : InvA v) (hB : InvB g n v)
    (hfix : ∀ i < n, sortkey_pass g n v i = v i) :
    ∀ idx, idx < n →
      (v idx).1 = stepsTarget g n v idx ∧ (v idx).2 = insTarget g n v idx := by
  have hfun : sortkey_pass g n v = v := by
    funext i
    by_cases hi : i < n
    · exact hfix i hi
    · exact sortkey_pass_off g n v i (by omega)
  intro idx hidx
  have hupd := foldl_updateProd_fix g n (List.range n) v (List.nodup_range n) hfun
    idx (List.mem_range.mpr hidx)
  have hval : updateProd g n v idx idx = v idx := by rw [hupd]
  unfold updateProd at hval
  rw [Function.update_same] at hval
  have h1 := congrArg Prod.fst hval
  have h2 := congrArg Prod.snd hval
  simp only [] at h1 h2
  constructor
  · by_cases hg : foldSteps g n v (g idx).scan 0 < INT_MAX ∧
        foldSteps g n v (g idx).scan 0 + 1 < (v idx).1
    · rw [if_pos hg] at h1
      omega
    · refine le_antisymm ?_ (hB idx).1
      unfold stepsTarget
      by_cases hf : foldSteps g n v (g idx).scan 0 < INT_MAX
      · rw [if_pos hf]
        have : ¬ foldSteps g n v (g idx).scan 0 + 1 < (v idx).1 := fun hc => hg ⟨hf, hc⟩
        omega
      · rw [if_neg hf]
        exact (hA idx).1
  · by_cases hg : foldIns g n v (g idx).scan 0 < (v idx).2
    · rw [if_pos hg] at h2
      omega
    · refine le_antisymm ?_ (hB idx).2
      unfold insTarget
      have := (hA idx).2
      omega

/-- The fixpoint equations for the result of `compute_sortkeys`. -/
theorem compute_sortkeys_fix (g : Nat → PShape) (n : Nat) :
    ∀ idx, idx < n →
      (compute_sortkeys g n idx).1 = stepsTarget g n (compute_sortkeys g n) idx ∧
      (compute_sortkeys g n idx).2 = insTarget g n (compute_sortkeys g n) idx := by
  have hinitA : InvA (fun _ => (INT_MAX, INT_MAX)) := fun _ => ⟨le_rfl, le_rfl⟩
  have hinitB : InvB g n (fun _ => (INT_MAX, INT_MAX)) := fun i =>
    ⟨stepsTarget_le_MAX g n _ i, insTarget_le_MAX g n _ i⟩
  obtain ⟨hA, hB, hfix⟩ := sortkey_loop_spec g n (sumV n (fun _ => (INT_MAX, INT_MAX)))
    (fun _ => (INT_MAX, INT_MAX)) le_rfl hinitA hinitB
  exact sortkey_fix_equations g n (compute_sortkeys g n) hA hB hfix

end Sdtgen

namespace Sdtgen

/-- The strict comparison of `sort_productions`: smaller `steps`, or equal
`steps` and smaller `insert`. -/
def keyLT (a b : Nat × Nat) : Prop :=
  a.1 < b.1 ∨ (a.1 = b.1 ∧ a.2 < b.2)

instance : DecidableRel keyLT := fun a b => by
  unfold keyLT; infer_instance

/-- The induced `(steps, insert)` lexicographic "at most". -/
def keyLE (a b : Nat × Nat) : Prop := ¬ keyLT b a

/-- The inner minimum scan of `sort_productions`: the value of the first
remaining production with the lexicographically least key (the running
minimum is replaced only on strict `keyLT`). -/
def lexMinVal : (Nat × Nat) → List (Nat × Nat) → (Nat × Nat)
  | x, [] => x
  | x, y :: ys => if keyLT y x then lexMinVal y ys else lexMinVal x ys

/-- The swap of `sort_productions`: the selected minimum's slot receives
the production displaced from the front of the remaining range. -/
def replaceFirst : List (Nat × Nat) → (Nat × Nat) → (Nat × Nat) → List (Nat × Nat)
  | [], _, _ => []
  | y :: ys, m, x => if y = m then x :: ys else y :: replaceFirst ys m x

theorem replaceFirst_length (m x : Nat × Nat) :
    ∀ l : List (Nat × Nat), (replaceFirst l m x).length = l.length := by
  intro l
  induction l with
  | nil => rfl
  | cons y ys ih =>
    rw [replaceFirst]
    by_cases hy : y = m
    · rw [if_pos hy]; rfl
    · rw [if_neg hy]
      simp [ih]

/-- `sort_productions` from src/src/symbols.c, on one LHS group: a
selection sort by `(steps, insert)` — find the least remaining key and
swap it to the front. -/
def selSort : List (Nat × Nat) → List (Nat × Nat)
  | [] => []
  | x :: rest =>
    if lexMinVal x rest = x then
      x :: selSort rest
    else
      lexMinVal x rest :: selSort (replaceFirst rest (lexMinVal x rest) x)
termination_by l => l.length
decreasing_by
  · simp
  · simp [replaceFirst_length]

theorem keyLT_trans {a b c : Nat × Nat} (h1 : keyLT a b) (h2 : keyLT b c) :
    keyLT a c := by
  unfold keyLT at *
  omega

theorem keyLT_of_not_lt_of_lt {x y m : Nat × Nat}
    (h1 : ¬ keyLT y x) (h2 : keyLT y m) : keyLT x m := by
  unfold keyLT at *
  omega

theorem lexMinVal_le :
    ∀ (ys : List (Nat × Nat)) (x : Nat × Nat),
      keyLE (lexMinVal x ys) x ∧ ∀ e ∈ ys, keyLE (lexMinVal x ys) e := by
  intro ys
  induction ys with
  | nil =>
    intro x
    rw [lexMinVal]
    refine ⟨?_, by simp⟩
    unfold keyLE keyLT
    omega
  | cons y ys ih =>
    intro x
    by_cases hy : keyLT y x
    · rw [lexMinVal, if_pos hy]
      obtain ⟨h1, h2⟩ := ih y
      refine ⟨?_, ?_⟩
      · intro hc
        exact h1 (keyLT_trans hy hc)
      · intro e he
        rcases List.mem_cons.mp he with he | he
        · exact he ▸ h1
        · exact h2 e he
    · rw [lexMinVal, if_neg hy]
      obtain ⟨h1, h2⟩ := ih x
      refine ⟨h1, ?_⟩
      · intro e he
        rcases List.mem_cons.mp he with he | he
        · subst he
          intro hc
          exact h1 (keyLT_of_not_lt_of_lt hy hc)
        · exact h2 e he

theorem lexMinVal_mem :
    ∀ (ys : List (Nat × Nat)) (x : Nat × Nat),
      lexMinVal x ys = x ∨ lexMinVal x ys ∈ ys := by
  intro ys
  induction ys with
  | nil => exact fun x => Or.inl rfl
  | cons y ys ih =>
    intro x
    by_cases hy : keyLT y x
    · rw [lexMinVal, if_pos hy]
      rcases ih y with h | h
      · exact Or.inr (by rw [h]; exact List.mem_cons_self _ _)
      · exact Or.inr (List.mem_cons_of_mem _ h)
    · rw [lexMinVal, if_neg hy]
      rcases ih x with h | h
      · exact Or.inl h
      · exact Or.inr (List.mem_cons_of_mem _ h)

theorem replaceFirst_perm (m x : Nat × Nat) :
    ∀ l : List (Nat × Nat), m ∈ l →
      List.Perm (x :: l) (m :: replaceFirst l m x) := by
  intro l
  induction l with
  | nil => intro h; cases h
  | cons y ys ih =>
    intro hm
    rw [replaceFirst]
    by_cases hy : y = m
    · subst hy
      rw [if_pos rfl]
      exact List.Perm.swap _ _ _
    · rw [if_neg hy]
      have hm' : m ∈ ys := by
        rcases List.mem_cons.mp hm with h | h
        · exact absurd h.symm hy
        · exact h
      exact ((List.Perm.swap y x ys).trans
        (List.Perm.cons y (ih hm'))).trans (List.Perm.swap m y _)

theorem replaceFirst_subset (m x : Nat × Nat) :
    ∀ l : List (Nat × Nat), ∀ e ∈ replaceFirst l m x, e = x ∨ e ∈ l := by
  intro l
  induction l with
  | nil => intro e he; cases he
  | cons y ys ih =>
    intro e he
    rw [replaceFirst] at he
    by_cases hy : y = m
    · rw [if_pos hy] at he
      rcases List.mem_cons.mp he with h | h
      · exact Or.inl h
      · exact Or.inr (List.mem_cons_of_mem _ h)
    · rw [if_neg hy] at he
      rcases List.mem_cons.mp he with h | h
      · exact Or.inr (h ▸ List.mem_cons_self _ _)
      · rcases ih e h with h' | h'
        · exact Or.inl h'
        · exact Or.inr (List.mem_cons_of_mem _ h')

theorem selSort_perm_aux :
    ∀ (L : Nat) (l : List (Nat × Nat)), l.length ≤ L →
      List.Perm (selSort l) l := by
  intro L
  induction L with
  | zero =>
    intro l hl
    have : l = [] := List.length_eq_zero.mp (by omega)
    subst this
    rw [selSort]
  | succ L ih =>
    intro l hl
    match l with
    | [] => rw [selSort]
    | x :: rest =>
      rw [selSort]
      by_cases hm : lexMinVal x rest = x
      · rw [if_pos hm]
        exact List.Perm.cons _ (ih rest (by simpa using hl))
      · rw [if_neg hm]
        have hmem : lexMinVal x rest ∈ rest := by
          rcases lexMinVal_mem rest x with h | h
          · exact absurd h hm
          · exact h
        refine List.Perm.trans (List.Perm.cons _ (ih _ ?_))
          (replaceFirst_perm _ x rest hmem).symm
        rw [replaceFirst_length]
        simpa using hl

theorem selSort_sorted_aux :
    ∀ (L : Nat) (l : List (Nat × Nat)), l.length ≤ L →
      (selSort l).Sorted keyLE := by
  intro L
  induction L with
  | zero =>
    intro l hl
    have : l = [] := List.length_eq_zero.mp (by omega)
    subst this
    rw [selSort]
    exact List.sorted_nil
  | succ L ih =>
    intro l hl
    match l with
    | [] => rw [selSort]; exact List.sorted_nil
    | x :: rest =>
      rw [selSort]
      by_cases hm : lexMinVal x rest = x
      · rw [if_pos hm]
        rw [List.sorted_cons]
        refine ⟨?_, ih rest (by simpa using hl)⟩
        intro b hb
        have hb' : b ∈ rest :=
          (selSort_perm_aux rest.length rest le_rfl).mem_iff.mp hb
        have := (lexMinVal_le rest x).2 b hb'
        rwa [hm] at this
      · rw [if_neg hm]
        rw [List.sorted_cons]
        have hlen : (replaceFirst rest (lexMinVal x rest) x).length ≤ L := by
          rw [replaceFirst_length]
          simpa using hl
        refine ⟨?_, ih _ hlen⟩
        intro b hb
        have hb' : b ∈ replaceFirst rest (lexMinVal x rest) x :=
          (selSort_perm_aux _ _ le_rfl).mem_iff.mp hb
        rcases replaceFirst_subset _ x rest b hb' with h | h
        · exact h ▸ (lexMinVal_le rest x).1
        · exact (lexMinVal_le rest x).2 b h

/-- The `(steps, insert)` keys of one nonterminal's alternatives, in
production order. -/
def lhsGroup (g : Nat → PShape) (n : Nat) (v : Nat → Nat × Nat) (N : Nat) :
    List (Nat × Nat) :=
  ((List.range n).filter (fun i => (g i).lhs == N)).map v

/-- `sort_productions` applied to one nonterminal's alternatives. -/
def sort_productions (g : Nat → PShape) (n : Nat) (v : Nat → Nat × Nat) (N : Nat) :
    List (Nat × Nat) :=
  selSort (lhsGroup g n v N)

end Sdtgen

namespace Sdtgen

/-- C5: with error repair enabled, after the sort-key fixpoint every
production's `steps` equals 1 plus the saturating sum, over the
nonterminals on its effective RHS, of the minimum `steps` over that
nonterminal's productions (`INT_MAX` playing ∞ when no finite derivation
exists), and its `insert` equals the sum of those minimum `insert` values
plus the insert costs of its non-ε RHS terminals (saturated likewise);
afterwards `sort_productions` orders each nonterminal's alternatives by
`(steps, insert)` ascending — a permutation of the group sorted by the
lexicographic key, cheapest derivation first. -/
theorem compute_sortkeys_sort_spec (g : Nat → PShape) (n : Nat) (idx N : Nat)
    (hidx : idx < n) :
    ((compute_sortkeys g n idx).1 = stepsTarget g n (compute_sortkeys g n) idx ∧
     (compute_sortkeys g n idx).2 = insTarget g n (compute_sortkeys g n) idx) ∧
    ((sort_productions g n (compute_sortkeys g n) N).Sorted keyLE ∧
      List.Perm (sort_productions g n (compute_sortkeys g n) N)
        (lhsGroup g n (compute_sortkeys g n) N)) :=
  ⟨compute_sortkeys_fix g n idx hidx,
   selSort_sorted_aux _ _ le_rfl, selSort_perm_aux _ _ le_rfl⟩

/-- The two-production grammar for the C5 witness: production 0 is
`N1 → "a"` (terminal of insert cost 4), production 1 is `N1 → N1 "b"`
(terminal of insert cost 2). -/
def gDemo : Nat → PShape := fun i =>
  if i = 0 then ⟨1, [.t 4 false]⟩ else ⟨1, [.nt 1, .t 2 false]⟩

/-- Witness for `compute_sortkeys_sort_spec` on `gDemo`: the fixpoint
gives production 0 the keys `(1, 4)` and production 1 the keys `(2, 6)`,
and the sorted alternatives of nonterminal 1 list the cheaper derivation
first. -/
theorem compute_sortkeys_sort_spec_witness :
    (0 : Nat) < 2 ∧
    compute_sortkeys gDemo 2 0 = (1, 4) ∧
    compute_sortkeys gDemo 2 1 = (2, 6) ∧
    (compute_sortkeys gDemo 2 0).1 = stepsTarget gDemo 2 (compute_sortkeys gDemo 2) 0 ∧
    sort_productions gDemo 2 (compute_sortkeys gDemo 2) 1 = [(1, 4), (2, 6)] ∧
    (sort_productions gDemo 2 (compute_sortkeys gDemo 2) 1).Sorted keyLE := by
  have h := compute_sortkeys_sort_spec gDemo 2 0 1 (by omega)
  have hval : compute_sortkeys gDemo 2 =
      sortkey_pass gDemo 2 (fun _ => (INT_MAX, INT_MAX)) := by
    rw [compute_sortkeys, sortkey_loop, dif_neg (by decide), sortkey_loop,
      dif_pos (by decide)]
  have hgrp : lhsGroup gDemo 2 (compute_sortkeys gDemo 2) 1 = [(1, 4), (2, 6)] := by
    rw [hval]
    decide
  have hsel : selSort [((1 : Nat), (4 : Nat)), (2, 6)] = [(1, 4), (2, 6)] := by
    rw [selSort, if_pos (by decide), selSort, if_pos (by decide), selSort]
  refine ⟨by omega, by rw [hval]; decide, by rw [hval]; decide, h.1.1, ?_, h.2.1⟩
  rw [sort_productions, hgrp, hsel]

end Sdtgen
